import Mathlib

/-!
RSA64 (`mRSA.c`) and RSASSA-PSS (`rsa_pss.c`): a shallow embedding

`uint64_t` values are natural numbers below `2^64`; every C operation that can
wrap is written with an explicit reduction modulo `2^64`.  A C loop becomes a
recursion on a fuel argument; the result is `none` when the fuel runs out, when
the C code would divide by zero, or when it would read memory it does not own.
-/

namespace mRSA

/-! ## Machine arithmetic -/

/-- Addition `a + b` on `uint64_t`. -/
def add64 (a b : Nat) : Nat := (a + b) % 2 ^ 64

/-- Subtraction `a - b` on `uint64_t` (wraps below zero). -/
def sub64 (a b : Nat) : Nat := (a + 2 ^ 64 - b % 2 ^ 64) % 2 ^ 64

/-- Multiplication `a * b` on `uint64_t`. -/
def mul64 (a b : Nat) : Nat := (a * b) % 2 ^ 64

/-- Conversion `uint64_t -> int64_t` (two's complement). -/
def int64_of (u : Nat) : Int := if u < 2 ^ 63 then (u : Int) else (u : Int) - 2 ^ 64

/-- Conversion `int64_t -> uint64_t`. -/
def uint64_of (i : Int) : Nat := (i % 2 ^ 64).toNat

/-- Modelled from the spec: `mRSA.h` is not among the sources; `PRIME` is the non-zero
verdict of the primality oracle (key generation compares the verdict with `0`). -/
def PRIME : Nat := 1

/-- Modelled from the spec: `mRSA.h` is not among the sources; `COMPOSITE` is the verdict
that key generation tests with `miller_rabin(p) == 0`. -/
def COMPOSITE : Nat := 0

/-! ## `mod_add`, `mod_mul`, `mod_pow` -/

/-- Function `mod_add(a, b, m)`; `a %= m` traps when `m = 0`. -/
def mod_add (a b m : Nat) : Option Nat :=
  if m = 0 then none
  else
    let a := a % m
    let b := b % m
    let b := sub64 m b
    if b > a then some (add64 (sub64 m b) a) else some (sub64 a b)

/-- The `while (b > 0)` loop of `mod_mul`, state `(a, b, r)`. -/
def mod_mul_loop : Nat → Nat → Nat → Nat → Nat → Option Nat
  | 0, _, _, _, _ => none
  | fuel + 1, a, b, m, r =>
    if b > 0 then do
      let r ← (if b &&& 1 ≠ 0 then (if m = 0 then some (add64 r a) else mod_add r a m) else some r)
      let a ← (if m = 0 then some (add64 a a) else mod_add a a m)
      mod_mul_loop fuel a (b >>> 1) m r
    else some r

/-- Function `mod_mul(a, b, m)`: `b` is halved by every iteration, so `b + 1` rounds suffice. -/
def mod_mul (a b m : Nat) : Option Nat := mod_mul_loop (b + 1) a b m 0

/-- The `while (b > 0)` loop of `mod_pow`, state `(a, b, r)`. -/
def mod_pow_loop : Nat → Nat → Nat → Nat → Nat → Option Nat
  | 0, _, _, _, _ => none
  | fuel + 1, a, b, m, r =>
    if b > 0 then do
      let r ← (if b &&& 1 ≠ 0 then (if m = 0 then some (mul64 r a) else mod_mul r a m) else some r)
      let a ← (if m = 0 then some (mul64 a a) else mod_mul a a m)
      mod_pow_loop fuel a (b >>> 1) m r
    else some r

/-- Function `mod_pow(a, b, m)`: `b` is halved by every iteration, so `b + 1` rounds
suffice. -/
def mod_pow (a b m : Nat) : Option Nat := mod_pow_loop (b + 1) a b m 1

/-! ## `gcd`, `xgcd`, `mul_inv` -/

/-- The `while (a && b)` loop of `gcd`. -/
def gcd_loop : Nat → Nat → Nat → Option Nat
  | 0, _, _ => none
  | fuel + 1, a, b =>
    if a ≠ 0 ∧ b ≠ 0 then gcd_loop fuel b (a % b) else some (add64 a b)

/-- Function `gcd(a, b)`: `b` strictly decreases, so `b + 1` rounds suffice. -/
def gcd (a b : Nat) : Option Nat := gcd_loop (b + 1) a b

/-- The `while (d1)` loop of `xgcd`, state `(d0, d1, x, x1, y, y1)`; the `flag` the source
computes is never read. -/
def xgcd_loop : Nat → Nat → Nat → Nat → Nat → Nat → Nat → Option (Nat × Nat × Nat)
  | 0, _, _, _, _, _, _ => none
  | fuel + 1, d0, d1, x, x1, y, y1 =>
    if d1 ≠ 0 then
      let q := d0 / d1
      xgcd_loop fuel d1 (sub64 d0 (mul64 q d1)) x1 (sub64 x (mul64 q x1)) y1 (sub64 y (mul64 q y1))
    else some (d0, x, y)

/-- Function `xgcd(a, b, &x, &y)`: returns `(d0, x, y)`; the returned `d0` is read back through
`int64_t` by the caller. -/
def xgcd (a b : Nat) : Option (Nat × Nat × Nat) := xgcd_loop (b + 1) a b 1 0 0 1

/-- Function `mul_inv(a, m)`; `x % m` traps when `m = 0`. -/
def mul_inv (a m : Nat) : Option Nat := do
  let (d0, x, _) ← xgcd a m
  let d := uint64_of (int64_of d0)
  if d = 1 then
    if x >>> 63 ≠ 0 then some (add64 x m)
    else if m = 0 then none else some (x % m)
  else some 0

/-! ## Primality oracle -/

/-- The `for (i = 0; k > i; i++)` loop of `prob_miller_rabin`: `rem` is `k - i`. -/
def prob_miller_rabin_loop (n a q : Nat) : Nat → Nat → Option Nat
  | 0, _ => some 0
  | rem + 1, i => do
    let x ← mod_pow a q n
    let e ← mod_pow 2 i n
    let y ← mod_pow x e n
    if y = sub64 n 1 then some 1 else prob_miller_rabin_loop n a q rem (i + 1)

/-- Function `prob_miller_rabin(n, a, k, q)`. -/
def prob_miller_rabin (n a k q : Nat) : Option Nat := do
  let x ← mod_pow a q n
  if x = 1 then some 1 else prob_miller_rabin_loop n a q k 0

/-- The `while (d % 2 == 0)` loop of `miller_rabin`, state `(d, k)`; returns `(k, d)`. -/
def strip_twos : Nat → Nat → Nat → Option (Nat × Nat)
  | 0, _, _ => none
  | fuel + 1, d, k =>
    if d % 2 = 0 then strip_twos fuel (d >>> 1) (add64 k 1) else some (k, d)

/-- The `&&` chain over the twelve bases, left to right with short circuit. -/
def all_bases (n k q : Nat) : List Nat → Option Bool
  | [] => some true
  | a :: rest => do
    let r ← prob_miller_rabin n a k q
    if r ≠ 0 then all_bases n k q rest else some false

/-- The twelve bases of the deterministic test. -/
def bases : List Nat := [2, 3, 5, 7, 11, 13, 17, 19, 23, 29, 31, 37]

/-- Function `miller_rabin(n)`; `fuel` bounds its `while (d % 2 == 0)` loop. -/
def miller_rabin (fuel n : Nat) : Option Nat :=
  let d := sub64 n 1
  if n = 2 ∨ n = 3 ∨ n = 5 ∨ n = 7 ∨ n = 11 ∨ n = 13 ∨
      n = 17 ∨ n = 19 ∨ n = 23 ∨ n = 29 ∨ n = 31 ∨ n = 37 then some PRIME
  else if n % 2 = 0 then some COMPOSITE
  else do
    let (k, _) ← strip_twos fuel d 0
    let p2 ← mod_pow 2 k n
    if p2 = 0 then none
    else
      let q := sub64 n 1 / p2
      let ok ← all_bases n k q bases
      if ok then some PRIME else some COMPOSITE

/-! ## Key generation and the raw cipher -/

/-- First `do ... while` of `mRSA_generate_key`: each element of the list is one pair of
`arc4random()` results; returns the accepted `(p, q, n)`. -/
def generate_pq (fuel : Nat) : List (Nat × Nat) → Option (Nat × Nat × Nat)
  | [] => none
  | (p, q) :: rest => do
    let n := mul64 p q
    let tp ← miller_rabin fuel p
    if tp = 0 then generate_pq fuel rest
    else
      let tq ← miller_rabin fuel q
      if tq = 0 then generate_pq fuel rest
      else if n < 0x8000000000000000 then generate_pq fuel rest
      else some (p, q, n)

/-- Second `do ... while` of `mRSA_generate_key`: each element of the list is one
`arc4random_buf` result; returns the accepted `(e, d)`. -/
def generate_ed (carmike : Nat) : List Nat → Option (Nat × Nat)
  | [] => none
  | r :: rest =>
    if carmike = 0 then none
    else do
      let e := r % carmike
      let g ← gcd e carmike
      if g ≠ 1 then generate_ed carmike rest
      else
        let d ← mul_inv e carmike
        if d = 0 then generate_ed carmike rest else some (e, d)

/-- The value `carmike` that `mRSA_generate_key` computes from the accepted `p`, `q`. -/
def carmichael (p q : Nat) : Option Nat := do
  let i ← gcd (sub64 p 1) (sub64 q 1)
  let t ← mod_mul (sub64 p 1) (sub64 q 1) 0
  if i = 0 then none else some (t / i)

/-- Function `mRSA_generate_key(&e, &d, &n)` as a function of the random draws. -/
def mRSA_generate_key (fuel : Nat) (pqs : List (Nat × Nat)) (es : List Nat) :
    Option (Nat × Nat × Nat) := do
  let (p, q, n) ← generate_pq fuel pqs
  let carmike ← carmichael p q
  let (e, d) ← generate_ed carmike es
  some (e, d, n)

/-- Function `mRSA_cipher(&m, k, n)`: returns the return code and the new `*m`. -/
def mRSA_cipher (m k n : Nat) : Option (Nat × Nat) :=
  if m > n then some (1, m)
  else do
    let r ← mod_pow m k n
    some (0, r)

end mRSA

namespace RSAPSS

/-! ## `rsa_pss.c`: configuration, bytes and the GMP collaborator -/

/-- An `unsigned char`. -/
abbrev Byte := Fin 256

/-- Modelled from the spec: `rsa_pss.h` is not among the sources; it fixes the modulus width
`RSAKEYSIZE` and the digest width `SHASIZE` (both in bits) at compile time. -/
structure Config where
  RSAKEYSIZE : Nat
  SHASIZE : Nat

/-- Modelled from the spec: `DBSIZE = RSAKEYSIZE - SHASIZE - 8` bits (macro of `rsa_pss.h`,
quoted in the comments of `rsassa_pss_sign`). -/
def Config.DBSIZE (c : Config) : Nat := c.RSAKEYSIZE - c.SHASIZE - 8

/-- Modelled from the spec: `MPRSIZE = 64 + 2 * SHASIZE` bits (macro of `rsa_pss.h`, quoted
in the comments of `rsassa_pss_sign`). -/
def Config.MPRSIZE (c : Config) : Nat := 64 + 2 * c.SHASIZE

/-- The configurations for which the array declarations of `rsa_pss.c` tile: both widths are
whole bytes, the digest is not empty, `RSAKEYSIZE` is an `int` constant, and `DBSIZE` is not
negative.  Then `RSAKEYSIZE / 8 = DBSIZE / 8 + SHASIZE / 8 + 1`. -/
def Config.WellFormed (c : Config) : Prop :=
  c.RSAKEYSIZE % 8 = 0 ∧ c.SHASIZE % 8 = 0 ∧ 0 < c.SHASIZE ∧ c.RSAKEYSIZE < 2 ^ 31 ∧
    c.SHASIZE + 8 ≤ c.RSAKEYSIZE

/-- Modelled from the spec: the return codes of `rsa_pss.h` (not among the sources): `OK` is
the return value `0`, the seven error codes are distinct and non-zero. -/
inductive Ret
  | OK
  | EM_MSG_TOO_LONG
  | EM_MSG_OUT_OF_RANGE
  | EM_HASH_TOO_LONG
  | EM_INVALID_LAST
  | EM_INVALID_INIT
  | EM_INVALID_PD2
  | EM_HASH_MISMATCH
  deriving DecidableEq, Repr

/-- GMP `mpz_import(rop, count, 1, 1, 1, 0, op)`: the integer whose big-endian base-256
digits are the bytes of `op`. -/
def mpz_import (bs : List Byte) : Nat := bs.foldl (fun acc b => acc * 256 + b.val) 0

/-- The `len` low-order base-256 digits of `v`, most significant first. -/
def be_bytes : Nat → Nat → List Byte
  | 0, _ => []
  | len + 1, v => Fin.ofNat (v / 256 ^ len) :: be_bytes len v

/-- GMP `mpz_export(rop, NULL, 1, size, 1, 0, op)`, the bytes it produces: none for `op = 0`
(the GMP manual: no word is produced, nothing is written, and `NULL` is returned when `rop` is
`NULL`), one big-endian word of `size` bytes for `0 < op < 256^size`.  A larger `op` takes
more than one word and would be written past the `size`-byte buffers of this program: `none`. -/
def mpz_export (size op : Nat) : Option (List Byte) :=
  if op = 0 then some []
  else if op < 256 ^ size then some (be_bytes size op)
  else none

/-- GMP `mpz_powm(rop, base, exp, mod)` for `mod > 0`. -/
def mpz_powm (b e m : Nat) : Nat := b ^ e % m

/-- Bytes `data` stored at the start of the buffer `buf`. -/
def store (buf data : List Byte) : List Byte := data ++ buf.drop data.length

/-! ## `rsa_cipher` -/

/-- Function `rsa_cipher(_m, _k, _n)`: the return code and the new content of the buffer `_m`. -/
def rsa_cipher (c : Config) (m k n : List Byte) : Option (Ret × List Byte) :=
  let W := c.RSAKEYSIZE / 8
  let mv := mpz_import (m.take W)
  let kv := mpz_import (k.take W)
  let nv := mpz_import (n.take W)
  if mv ≥ nv then some (Ret.EM_MSG_OUT_OF_RANGE, m)
  else do
    let out ← mpz_export W (mpz_powm mv kv nv)
    some (Ret.OK, store m out)

/-! ## `rsa_generate_key` -/

/-- GMP `mpz_urandomb(rop, state, n)`: uniform in `[0, 2^n - 1]`; `raw` is the randomness
taken from the generator state. -/
def mpz_urandomb (raw n : Nat) : Nat := raw % 2 ^ n

/-- GMP `mpz_invert(rop, op1, op2)`: the inverse of `op1` modulo `op2` in `[0, op2)`; `none`
when there is none (the GMP manual: the return value is zero and `rop` is undefined). -/
def mpz_invert (a m : Nat) : Option Nat :=
  if m ≠ 0 ∧ Nat.gcd a m = 1 then some (Nat.gcdA a m % (m : Int)).toNat else none

/-- A loop `do mpz_urandomb(x, state, bits); while (mpz_probab_prime_p(x, 50) == 0);` run
on the stream of raw draws: the accepted value and the rest of the stream.  `isprime`
stands for GMP `mpz_probab_prime_p(., 50)`. -/
def draw_prime (isprime : Nat → Nat) (bits : Nat) : List Nat → Option (Nat × List Nat)
  | [] => none
  | raw :: rest =>
    if isprime (mpz_urandomb raw bits) = 0 then draw_prime isprime bits rest
    else some (mpz_urandomb raw bits, rest)

/-- The outer `do ... while (!mpz_tstbit(n, RSAKEYSIZE-1))` loop of `rsa_generate_key`:
the accepted `(p, q, n)` and the rest of the stream. -/
def draw_modulus (c : Config) (isprime : Nat → Nat) :
    Nat → List Nat → Option (Nat × Nat × Nat × List Nat)
  | 0, _ => none
  | fuel + 1, draws => do
    let (p, r1) ← draw_prime isprime (c.RSAKEYSIZE / 2) draws
    let (q, r2) ← draw_prime isprime (c.RSAKEYSIZE / 2) r1
    let n := p * q
    if ¬ n.testBit (c.RSAKEYSIZE - 1) then draw_modulus c isprime fuel r2
    else some (p, q, n, r2)

/-- The loop that draws a random `e` (any `mode` other than `0`). -/
def draw_exponent (c : Config) (lambda : Nat) : List Nat → Option Nat
  | [] => none
  | raw :: rest =>
    let e := mpz_urandomb raw c.RSAKEYSIZE
    if e ≥ lambda ∨ Nat.gcd e lambda ≠ 1 then draw_exponent c lambda rest else some e

/-- What a call of `rsa_generate_key` leaves behind: the accepted primes, `lambda`, the
integers `e`, `d`, `n` (`d = none` when `mpz_invert` found no inverse and left it undefined)
and the bytes exported to `_e`, `_d`, `_n` (`none` where they are not determined). -/
structure KeyOut where
  p : Nat
  q : Nat
  lambda : Nat
  e : Nat
  d : Option Nat
  n : Nat
  e_bytes : Option (List Byte)
  d_bytes : Option (List Byte)
  n_bytes : Option (List Byte)
  deriving DecidableEq

/-- Function `rsa_generate_key(_e, _d, _n, mode)` as a function of the raw random draws; each of the
two nested loops consumes draws, so `draws.length + 1` rounds of the outer loop suffice. -/
def rsa_generate_key (c : Config) (isprime : Nat → Nat) (mode : Int) (draws : List Nat) :
    Option KeyOut := do
  let (p, q, n, rest) ← draw_modulus c isprime (draws.length + 1) draws
  let lambda := Nat.lcm (p - 1) (q - 1)
  let e ← (if mode = 0 then some 65537 else draw_exponent c lambda rest)
  let d := mpz_invert e lambda
  some { p := p, q := q, lambda := lambda, e := e, d := d, n := n,
         e_bytes := mpz_export (c.RSAKEYSIZE / 8) e,
         d_bytes := d.bind (mpz_export (c.RSAKEYSIZE / 8)),
         n_bytes := mpz_export (c.RSAKEYSIZE / 8) n }

/-! ## `mgf` -/

/-- The 32-bit variable `count` of `mgf`: `maskLen / hLen + (maskLen % hLen ? 1 : 0)` stored
in a `uint32_t`. -/
def mgf_count (c : Config) (maskLen : Nat) : Nat :=
  (maskLen / (c.SHASIZE / 8) + (if maskLen % (c.SHASIZE / 8) ≠ 0 then 1 else 0)) % 2 ^ 32

/-- The bytes of `mgfIn` that round `i` of `mgf` hashes: the seed followed by the counter,
big-endian on four bytes; `(*sha)` takes the length `seedLen + 4` as an `unsigned int`. -/
def mgf_in (mgfSeed : List Byte) (seedLen i : Nat) : List Byte :=
  (mgfSeed.take seedLen ++ be_bytes 4 i).take ((seedLen + 4) % 2 ^ 32)

/-- The scratch buffer `m` of `mgf` after its `for` loop: `count` digests, `count * hLen`
bytes. -/
def mgf_blocks (sha : List Byte → List Byte) (mgfSeed : List Byte) (seedLen count : Nat) :
    List Byte :=
  (List.range count).flatMap fun i => sha (mgf_in mgfSeed seedLen i)

/-- Function `mgf(mgfSeed, seedLen, mask, maskLen)`: the bytes written to `mask`.  The result
`none` is the `NULL` return of the guard, the division by `hLen = 0`, and the `memcpy` that
reads `maskLen` bytes from a buffer `m` that holds fewer. -/
def mgf (c : Config) (sha : List Byte → List Byte) (mgfSeed : List Byte)
    (seedLen maskLen : Nat) : Option (List Byte) :=
  let hLen := c.SHASIZE / 8
  if maskLen > (0x0100000000 * hLen) % 2 ^ 64 then none
  else if hLen = 0 then none
  else
    let m := mgf_blocks sha mgfSeed seedLen (mgf_count c maskLen)
    if m.length < maskLen then none else some (m.take maskLen)

/-! ## `rsassa_pss_sign` and `rsassa_pss_verify` -/

/-- The message as `(*sha)` sees it: the length is passed as `(unsigned int)mLen`. -/
def hashed_part (m : List Byte) : List Byte := m.take (m.length % 2 ^ 32)

/-- The guard `SHASIZE < 384 && mLen > 0x1fffffffffffffff`. -/
def msg_too_long (c : Config) (m : List Byte) : Prop :=
  c.SHASIZE < 384 ∧ m.length > 0x1fffffffffffffff

instance (c : Config) (m : List Byte) : Decidable (msg_too_long c m) := by
  unfold msg_too_long; infer_instance

/-- The digest of `M' = 0x00 * 8 || mHash || salt`, hashed over `MPRSIZE / 8` bytes. -/
def m_prime_hash (c : Config) (sha : List Byte → List Byte) (mHash salt : List Byte) :
    List Byte :=
  sha ((List.replicate 8 (0 : Byte) ++ mHash ++ salt).take (c.MPRSIZE / 8 % 2 ^ 32))

/-- The statement `if (em[0] >> 7) em[0] &= 0x7f;`. -/
def clear_top_bit : List Byte → List Byte
  | [] => []
  | b :: rest => (if b >>> 7 ≠ 0 then b &&& 0x7f else b) :: rest

/-- Lines 194-239 of `rsassa_pss_sign`: the encoded message `em` handed to `rsa_cipher`, for
the message digest `mHash` and the salt bytes.  `none` when the C code reads an
uninitialised `mask` (`mgf` returned `NULL`) or copies from the `NULL` that `mpz_export`
returns for a zero `maskedDB`.  The lists stand for the arrays `mask`, `dB`, `em`, whose
declared sizes they have in a well-formed configuration. -/
def pss_encode (c : Config) (sha : List Byte → List Byte) (mHash salt : List Byte) :
    Option (List Byte) := do
  let hLen := c.SHASIZE / 8
  let dbLen := c.DBSIZE / 8
  let mPrimeHash := m_prime_hash c sha mHash salt
  let mask ← mgf c sha mPrimeHash hLen dbLen
  let dB := List.replicate (dbLen - hLen - 1) (0 : Byte) ++ [1] ++ salt
  let maskedDB ← mpz_export dbLen (mpz_import mask ^^^ mpz_import dB)
  if maskedDB.length < dbLen then none
  else some (clear_top_bit (maskedDB.take dbLen ++ mPrimeHash.take hLen ++ [0xbc]))

/-- Function `rsassa_pss_sign(m, mLen, d, n, s)`; `rop` is the integer `mpz_rrandomb` draws for the
salt.  Returns the code and the bytes written to `s` (none on an error). -/
def rsassa_pss_sign (c : Config) (sha : List Byte → List Byte) (m : List Byte) (rop : Nat)
    (d n : List Byte) : Option (Ret × List Byte) :=
  let hLen := c.SHASIZE / 8
  if msg_too_long c m then some (Ret.EM_MSG_TOO_LONG, [])
  else do
    let mHash := sha (hashed_part m)
    let salt ← mpz_export hLen rop
    if salt.length < hLen then none
    else if hLen > c.RSAKEYSIZE / 2 then some (Ret.EM_HASH_TOO_LONG, [])
    else do
      let em ← pss_encode c sha mHash salt
      let (code, em') ← rsa_cipher c em d n
      if code = Ret.EM_MSG_OUT_OF_RANGE then some (Ret.EM_MSG_OUT_OF_RANGE, [])
      else some (Ret.OK, em'.take (c.RSAKEYSIZE / 8))

/-- The three padding tests of `rsassa_pss_verify` on `pad`; `none` when an index is outside
`pad`. -/
def pad_check (pad : List Byte) (padLen : Nat) : Option Bool := do
  let p0 ← pad[0]?
  if p0 ≠ 0x80 ∧ p0 ≠ 0x0 then some false
  else if ((pad.take (padLen - 1)).drop 1).any (fun b => b ≠ 0) then some false
  else do
    let pl ← pad[padLen - 1]?
    if pl ≠ 0x01 then some false else some true

/-- Lines 294-346 of `rsassa_pss_verify`: the checks on the decoded message `em`, in the
order of the source.  `none` when the C code reads an uninitialised `mask` or copies from
the `NULL` that `mpz_export` returns for a zero `dB`. -/
def pss_decode (c : Config) (sha : List Byte → List Byte) (m em : List Byte) : Option Ret :=
  let W := c.RSAKEYSIZE / 8
  let hLen := c.SHASIZE / 8
  let dbLen := c.DBSIZE / 8
  let padLen := dbLen - hLen
  do
    let last ← em[W - 1]?
    if last ≠ 0xbc then some Ret.EM_INVALID_LAST
    else do
      let first ← em[0]?
      if first >>> 7 ≠ 0 then some Ret.EM_INVALID_INIT
      else do
        let maskedDB := em.take dbLen
        let mPrimeHash := (em.drop dbLen).take hLen
        let mask ← mgf c sha mPrimeHash hLen dbLen
        let dB ← mpz_export dbLen (mpz_import maskedDB ^^^ mpz_import mask)
        if dB.length < dbLen then none
        else do
          let padOk ← pad_check (dB.take padLen) padLen
          if padOk = false then some Ret.EM_INVALID_PD2
          else
            let salt := (dB.drop padLen).take hLen
            let mHash := sha (hashed_part m)
            let hashPrime := m_prime_hash c sha mHash salt
            if hashPrime.take hLen ≠ mPrimeHash.take hLen then some Ret.EM_HASH_MISMATCH
            else some Ret.OK

/-- Function `rsassa_pss_verify(m, mLen, e, n, s)`.  The C code copies `RSAKEYSIZE` bytes from `s`
into `em`; only the first `RSAKEYSIZE / 8`, the signature, are ever used. -/
def rsassa_pss_verify (c : Config) (sha : List Byte → List Byte) (m : List Byte)
    (e n s : List Byte) : Option Ret :=
  if msg_too_long c m then some Ret.EM_MSG_TOO_LONG
  else do
    let (code, em) ← rsa_cipher c s e n
    if code = Ret.EM_MSG_OUT_OF_RANGE then some Ret.EM_MSG_OUT_OF_RANGE
    else pss_decode c sha m em

end RSAPSS

namespace mRSA

/-- Loop invariant of `xgcd` once the first iteration is done: `x`, `x1` are the two
Bezout coefficients of `a` (of opposite sign, magnitudes `u`, `u1`) reduced modulo `2^64`. -/
def XInv (a b d0 d1 x x1 : Nat) : Prop :=
  ∃ (s : Int) (u u1 dp : Nat),
    (s = 1 ∨ s = -1) ∧
    (x : Int) ≡ s * u [ZMOD 2 ^ 64] ∧ (x1 : Int) ≡ -(s * u1) [ZMOD 2 ^ 64] ∧
    x < 2 ^ 64 ∧ x1 < 2 ^ 64 ∧
    d0 * u1 + d1 * u = b ∧
    Nat.gcd d0 d1 = Nat.gcd a b ∧
    (a : Int) * (s * u) ≡ d0 [ZMOD b] ∧ (a : Int) * (-(s * u1)) ≡ d1 [ZMOD b] ∧
    d1 = dp % d0 ∧ dp * u ≤ b ∧ (u = 0 ∨ d0 < dp) ∧ 0 < d0 ∧ d0 < 2 ^ 64

/-- What `xgcd` guarantees about the coefficient it returns. -/
def XPost (a b x : Nat) : Prop :=
  ∃ (s : Int) (u : Nat),
    (s = 1 ∨ s = -1) ∧ (x : Int) ≡ s * u [ZMOD 2 ^ 64] ∧ x < 2 ^ 64 ∧
    (a : Int) * (s * u) ≡ (Nat.gcd a b : Int) [ZMOD b] ∧
    (Nat.gcd a b = 1 → u = 0 ∨ 2 * u ≤ b)

end mRSA

namespace mRSA

/-! ## The verdicts of the oracle in closed form

`mod_pow` returns a power residue (`mod_pow_eq`).  The functions below compute the same
residues by square-and-multiply on unbounded naturals, and from them the verdicts of
`prob_miller_rabin` and `miller_rabin`; they are proved equal to the embedding and serve to
evaluate it on 32-bit inputs. -/

/-- Square-and-multiply: `r * a ^ b % m`, for `b < fuel`. -/
def pow_mod_loop : Nat → Nat → Nat → Nat → Nat → Nat
  | 0, _, _, m, r => r % m
  | fuel + 1, a, b, m, r =>
    if b = 0 then r % m
    else pow_mod_loop fuel (a * a % m) (b / 2) m (if b % 2 = 1 then r * a % m else r)

/-- The residue `a ^ b % m`. -/
def pow_mod (a b m : Nat) : Nat := pow_mod_loop (b + 1) a b m 1

/-- The value `mod_pow(a, b, m)` returns for a 64-bit `m`. -/
def mod_pow_val (a b m : Nat) : Nat :=
  if b = 0 then 1 else pow_mod a b (if m = 0 then 2 ^ 64 else m)

/-- The value of `prob_miller_rabin_loop`. -/
def prob_loop_val (n a q : Nat) : Nat → Nat → Nat
  | 0, _ => 0
  | rem + 1, i =>
    if mod_pow_val (mod_pow_val a q n) (mod_pow_val 2 i n) n = sub64 n 1 then 1
    else prob_loop_val n a q rem (i + 1)

/-- The value of `prob_miller_rabin`. -/
def prob_val (n a k q : Nat) : Nat :=
  if mod_pow_val a q n = 1 then 1 else prob_loop_val n a q k 0

/-- The value of `all_bases`. -/
def all_bases_val (n k q : Nat) : List Nat → Bool
  | [] => true
  | a :: rest => if prob_val n a k q ≠ 0 then all_bases_val n k q rest else false

/-- The value of `miller_rabin`. -/
def miller_rabin_val (fuel n : Nat) : Option Nat :=
  if n = 2 ∨ n = 3 ∨ n = 5 ∨ n = 7 ∨ n = 11 ∨ n = 13 ∨
      n = 17 ∨ n = 19 ∨ n = 23 ∨ n = 29 ∨ n = 31 ∨ n = 37 then some PRIME
  else if n % 2 = 0 then some COMPOSITE
  else
    match strip_twos fuel (sub64 n 1) 0 with
    | none => none
    | some (k, _) =>
      if mod_pow_val 2 k n = 0 then none
      else
        some (if all_bases_val n k (sub64 n 1 / mod_pow_val 2 k n) bases then PRIME
          else COMPOSITE)

end mRSA

namespace RSAPSS

/-- A valid RSA key pair of the configured width, as three buffers of `RSAKEYSIZE / 8`
bytes: `n = p * q` for distinct primes, bit `RSAKEYSIZE - 1` of `n` is set, and
`e * d = 1 (mod lcm(p-1, q-1))`. -/
def ValidKey (c : Config) (e d n : List Byte) : Prop :=
  e.length = c.RSAKEYSIZE / 8 ∧ d.length = c.RSAKEYSIZE / 8 ∧ n.length = c.RSAKEYSIZE / 8 ∧
  ∃ p q : Nat, p.Prime ∧ q.Prime ∧ p ≠ q ∧ mpz_import n = p * q ∧
    2 ^ (c.RSAKEYSIZE - 1) ≤ mpz_import n ∧
    mpz_import e * mpz_import d ≡ 1 [MOD Nat.lcm (p - 1) (q - 1)]

/-- Trial division from `d` upwards: no `d'` with `d <= d'` and `d' * d' <= n` divides `n`
(`fuel` counts the candidates still to try). -/
def trial_loop (n : Nat) : Nat → Nat → Bool
  | 0, _ => true
  | fuel + 1, d =>
    if d * d > n then true
    else if n % d = 0 then false
    else trial_loop n fuel (d + 1)

/-- Trial division: `n >= 2` and no `d` with `2 <= d`, `d * d <= n` divides `n`. -/
def trial_division (n : Nat) : Bool := decide (2 ≤ n) && trial_loop n n 2

/-- An exact primality test in the place of `mpz_probab_prime_p(., 50)`: `2` (definitely
prime) on the primes, `0` (definitely composite) elsewhere. -/
def exact_prime_p (n : Nat) : Nat := if trial_division n then 2 else 0

/-- A one-byte digest used to instantiate the digest parameter: a running polynomial
checksum of the input. -/
def toy_sha (x : List Byte) : List Byte := [x.foldl (fun acc b => acc * 31 + b + 7) 1]

end RSAPSS

namespace RSAPSS

/-- The mask stream as the specification words it, `count` blocks long:
`digest(seed || BE32(0)) || digest(seed || BE32(1)) || ...`. -/
def mgf_stream (sha : List Byte → List Byte) (seed : List Byte) (count : Nat) : List Byte :=
  (List.range count).flatMap fun i => sha (seed ++ be_bytes 4 i)

/-- The message `m` with bit `j` of its byte `i` inverted. -/
def flip_bit (m : List Byte) (i j : Nat) : List Byte :=
  m.set i (m.getD i 0 ^^^ Fin.ofNat (2 ^ j))

/-- The padding test as the specification words it, on the data block `DB`: `DB[0]` is
neither `0x00` nor `0x80`, or some `DB[i]` with `1 <= i <= padLen - 2` is not zero, or
`DB[padLen - 1]` is not `0x01`. -/
def pad_invalid (DB : List Byte) (padLen : Nat) : Prop :=
  (DB.getD 0 0 ≠ 0x00 ∧ DB.getD 0 0 ≠ 0x80) ∨
    (∃ i, i < padLen - 1 ∧ 1 ≤ i ∧ DB.getD i 0 ≠ 0) ∨ DB.getD (padLen - 1) 0 ≠ 0x01

instance (DB : List Byte) (padLen : Nat) : Decidable (pad_invalid DB padLen) := by
  unfold pad_invalid; infer_instance

/-- The verdict on a decoded message `em` as the specification words it (steps 3 to 10 of
verification): the first failing check decides, in the order trailer byte, leading bit,
padding of `DB = maskedDB xor mgf(H')`, digest of `0x00 * 8 || digest(m) || salt`. -/
def verify_classify (c : Config) (sha : List Byte → List Byte) (m em : List Byte) : Ret :=
  let hLen := c.SHASIZE / 8
  let dbLen := c.DBSIZE / 8
  let padLen := dbLen - hLen
  let H := (em.drop dbLen).take hLen
  let mask := (mgf_stream sha H (dbLen / hLen + 1)).take dbLen
  let DB := be_bytes dbLen (mpz_import (em.take dbLen) ^^^ mpz_import mask)
  if em.getD (c.RSAKEYSIZE / 8 - 1) 0 ≠ 0xbc then Ret.EM_INVALID_LAST
  else if em.getD 0 0 >>> 7 ≠ 0 then Ret.EM_INVALID_INIT
  else if pad_invalid DB padLen then Ret.EM_INVALID_PD2
  else if sha (List.replicate 8 (0 : Byte) ++ sha m ++ DB.drop padLen) ≠ H then
    Ret.EM_HASH_MISMATCH
  else Ret.OK

end RSAPSS

namespace mRSA

theorem add64_of_lt {a b : Nat} (h : a + b < 2 ^ 64) : add64 a b = a + b := by
  unfold add64; exact Nat.mod_eq_of_lt h

theorem sub64_of_le {a b : Nat} (h : b ≤ a) (ha : a < 2 ^ 64) : sub64 a b = a - b := by
  unfold sub64; omega

theorem mul64_of_lt {a b : Nat} (h : a * b < 2 ^ 64) : mul64 a b = a * b := by
  unfold mul64; exact Nat.mod_eq_of_lt h

theorem uint64_of_int64_of {u : Nat} (h : u < 2 ^ 64) : uint64_of (int64_of u) = u := by
  unfold uint64_of int64_of
  split <;> omega

theorem mod_add_eq (a b m : Nat) (hm : 0 < m) (hm64 : m < 2 ^ 64) :
    mod_add a b m = some ((a + b) % m) := by
  have ha : a % m < m := Nat.mod_lt _ hm
  have hb : b % m < m := Nat.mod_lt _ hm
  have hab : (a + b) % m = (a % m + b % m) % m := Nat.add_mod a b m
  rw [hab]
  unfold mod_add
  rw [if_neg (by omega)]
  simp only
  generalize a % m = a0 at *
  generalize b % m = b0 at *
  have h1 : sub64 m b0 = m - b0 := sub64_of_le (by omega) hm64
  rw [h1]
  by_cases hlt : m - b0 > a0
  · rw [if_pos hlt]
    have h2 : sub64 m (m - b0) = b0 := by rw [sub64_of_le (by omega) hm64]; omega
    rw [h2, add64_of_lt (by omega), Nat.mod_eq_of_lt (by omega)]
    congr 1; omega
  · rw [if_neg hlt, sub64_of_le (by omega) (by omega)]
    have h3 : (a0 + b0) % m = a0 + b0 - m := by
      rw [Nat.mod_eq_sub_mod (by omega), Nat.mod_eq_of_lt (by omega)]
    rw [h3]; congr 1; omega

theorem mod_mul_loop_eq (m : Nat) (hm : 0 < m) (hm64 : m < 2 ^ 64) :
    ∀ (fuel a b r : Nat), b < fuel → r < m →
      mod_mul_loop fuel a b m r = some ((r + a * b) % m) := by
  intro fuel
  induction fuel with
  | zero => intro a b r hb; omega
  | succ fuel ih =>
    intro a b r hb hr
    unfold mod_mul_loop
    by_cases hb0 : b > 0
    · rw [if_pos hb0]
      have hm0 : m ≠ 0 := by omega
      simp only [if_neg hm0, mod_add_eq _ _ m hm hm64, Nat.and_one_is_mod, Nat.shiftRight_one]
      by_cases hodd : b % 2 = 0
      · simp only [hodd, ne_eq, not_true_eq_false, if_false, Option.bind_eq_bind, Option.some_bind]
        rw [ih _ _ _ (by omega) hr]
        congr 1
        have : b = 2 * (b / 2) := by omega
        conv_rhs => rw [this]
        rw [Nat.add_mod, Nat.mul_mod, Nat.mod_mod, ← Nat.mul_mod, ← Nat.add_mod]
        congr 1; ring
      · have hodd1 : b % 2 = 1 := by omega
        simp only [hodd1, ne_eq, one_ne_zero, not_false_eq_true, if_true, Option.bind_eq_bind, Option.some_bind]
        rw [ih _ _ _ (by omega) (Nat.mod_lt _ hm)]
        congr 1
        have : b = 2 * (b / 2) + 1 := by omega
        conv_rhs => rw [this]
        rw [Nat.add_mod, Nat.mod_mod, Nat.mul_mod ((a + a) % m), Nat.mod_mod, ← Nat.mul_mod, ← Nat.add_mod]
        congr 1; ring
    · rw [if_neg hb0]
      have : b = 0 := by omega
      subst this
      simp [Nat.mod_eq_of_lt hr]

theorem mod_mul_loop_zero :
    ∀ (fuel a b r : Nat), b < fuel → r < 2 ^ 64 →
      mod_mul_loop fuel a b 0 r = some ((r + a * b) % 2 ^ 64) := by
  intro fuel
  induction fuel with
  | zero => intro a b r hb; omega
  | succ fuel ih =>
    intro a b r hb hr
    unfold mod_mul_loop
    by_cases hb0 : b > 0
    · rw [if_pos hb0]
      simp only [if_true, Nat.and_one_is_mod, Nat.shiftRight_one, add64]
      by_cases hodd : b % 2 = 0
      · simp only [hodd, ne_eq, not_true_eq_false, if_false, Option.bind_eq_bind, Option.some_bind]
        rw [ih _ _ _ (by omega) hr]
        congr 1
        have : b = 2 * (b / 2) := by omega
        conv_rhs => rw [this]
        rw [Nat.add_mod, Nat.mul_mod, Nat.mod_mod, ← Nat.mul_mod, ← Nat.add_mod]
        congr 1; ring
      · have hodd1 : b % 2 = 1 := by omega
        simp only [hodd1, ne_eq, one_ne_zero, not_false_eq_true, if_true, Option.bind_eq_bind, Option.some_bind]
        rw [ih _ _ _ (by omega) (Nat.mod_lt _ (by norm_num))]
        congr 1
        have : b = 2 * (b / 2) + 1 := by omega
        conv_rhs => rw [this]
        rw [Nat.add_mod, Nat.mod_mod, Nat.mul_mod ((a + a) % 2 ^ 64), Nat.mod_mod, ← Nat.mul_mod, ← Nat.add_mod]
        congr 1; ring
    · rw [if_neg hb0]
      have : b = 0 := by omega
      subst this
      rw [Nat.mul_zero, Nat.add_zero, Nat.mod_eq_of_lt hr]

theorem mod_mul_eq (a b m : Nat) (hm : 0 < m) (hm64 : m < 2 ^ 64) :
    mod_mul a b m = some (a * b % m) := by
  unfold mod_mul
  rw [mod_mul_loop_eq m hm hm64 _ _ _ _ (by omega) hm, Nat.zero_add]

theorem mod_mul_zero (a b : Nat) : mod_mul a b 0 = some (a * b % 2 ^ 64) := by
  unfold mod_mul
  rw [mod_mul_loop_zero _ _ _ _ (by omega) (by norm_num), Nat.zero_add]

theorem mod_pow_loop_succ (fuel a b m r : Nat) :
    mod_pow_loop (fuel + 1) a b m r =
      if b > 0 then
        (if b &&& 1 ≠ 0 then (if m = 0 then some (mul64 r a) else mod_mul r a m)
          else some r).bind fun r1 =>
        (if m = 0 then some (mul64 a a) else mod_mul a a m).bind fun a1 =>
          mod_pow_loop fuel a1 (b >>> 1) m r1
      else some r := rfl

/-- Value of `mod_pow` in terms of the modulus actually used (`2^64` for the sentinel). -/
theorem mod_pow_loop_eq (m M : Nat) (hM : M = if m = 0 then 2 ^ 64 else m) (hm64 : m < 2 ^ 64) :
    ∀ (fuel a b r : Nat), b < fuel →
      mod_pow_loop fuel a b m r = some (if b = 0 then r else (r * a ^ b) % M) := by
  have hMpos : 0 < M := by subst hM; split <;> omega
  have hmul : ∀ x y, (if m = 0 then some (mul64 x y) else mod_mul x y m) = some (x * y % M) := by
    intro x y
    by_cases h0 : m = 0
    · subst hM; simp [h0, mul64]
    · subst hM; simp only [h0, if_false]; exact mod_mul_eq _ _ _ (by omega) hm64
  intro fuel
  induction fuel with
  | zero => intro a b r hb; omega
  | succ fuel ih =>
    intro a b r hb
    rw [mod_pow_loop_succ]
    by_cases hb0 : b > 0
    · have hbne : ¬ b = 0 := by omega
      rw [if_pos hb0, if_neg hbne, hmul, hmul, Nat.and_one_is_mod, Nat.shiftRight_one]
      by_cases hodd : b % 2 = 0
      · rw [if_neg (by omega), Option.some_bind, Option.some_bind, ih _ _ _ (by omega)]
        have hb2 : b / 2 ≠ 0 := by omega
        rw [if_neg hb2]
        congr 1
        have : b = 2 * (b / 2) := by omega
        conv_rhs => rw [this, pow_mul, sq]
        rw [Nat.mul_mod, Nat.pow_mod, Nat.mod_mod, ← Nat.pow_mod, ← Nat.mul_mod]
      · rw [if_pos (by omega), Option.some_bind, Option.some_bind, ih _ _ _ (by omega)]
        have : b = 2 * (b / 2) + 1 := by omega
        by_cases hb2 : b / 2 = 0
        · rw [if_pos hb2]
          have hb1 : b = 1 := by omega
          subst hb1
          rw [pow_one]
        · rw [if_neg hb2]
          congr 1
          conv_rhs => rw [this, pow_succ, pow_mul, sq]
          rw [Nat.mul_mod, Nat.mod_mod, Nat.pow_mod (a * a % M), Nat.mod_mod, ← Nat.pow_mod,
            ← Nat.mul_mod]
          congr 1; ring
    · rw [if_neg hb0]
      have : b = 0 := by omega
      subst this
      rw [if_pos rfl]

theorem mod_pow_eq (a b m : Nat) (hm64 : m < 2 ^ 64) :
    mod_pow a b m = some (if b = 0 then 1 else a ^ b % (if m = 0 then 2 ^ 64 else m)) := by
  unfold mod_pow
  rw [mod_pow_loop_eq m _ rfl hm64 _ _ _ _ (by omega), Nat.one_mul]

theorem mod_pow_eq_pos (a b m : Nat) (hm : 0 < m) (hm64 : m < 2 ^ 64) (h : 0 < b ∨ 1 < m) :
    mod_pow a b m = some (a ^ b % m) := by
  have hmm : (if m = 0 then 2 ^ 64 else m) = m := if_neg (by omega)
  rw [mod_pow_eq a b m hm64, hmm]
  by_cases hb : b = 0
  · subst hb
    rw [if_pos rfl, pow_zero, Nat.mod_eq_of_lt (by omega)]
  · rw [if_neg hb]

theorem gcd_loop_eq : ∀ (fuel a b : Nat), b < fuel → a < 2 ^ 64 → b < 2 ^ 64 →
    gcd_loop fuel a b = some (Nat.gcd a b) := by
  intro fuel
  induction fuel with
  | zero => intro a b hb; omega
  | succ fuel ih =>
    intro a b hb ha hb64
    unfold gcd_loop
    by_cases h : a ≠ 0 ∧ b ≠ 0
    · rw [if_pos h]
      have hlt : a % b < b := Nat.mod_lt _ (by omega)
      rw [ih _ _ (by omega) hb64 (by omega)]
      congr 1
      rw [Nat.gcd_comm b, ← Nat.gcd_rec, Nat.gcd_comm]
    · rw [if_neg h]
      congr 1
      by_cases ha0 : a = 0
      · subst ha0; simp [add64]; omega
      · have hb0 : b = 0 := by
          by_contra hne; exact h ⟨ha0, hne⟩
        subst hb0; simp [add64]; omega

theorem gcd_eq (a b : Nat) (ha : a < 2 ^ 64) (hb : b < 2 ^ 64) :
    gcd a b = some (Nat.gcd a b) := by
  unfold gcd; exact gcd_loop_eq _ _ _ (by omega) ha hb

theorem sub64_lt (a b : Nat) : sub64 a b < 2 ^ 64 := by
  unfold sub64; exact Nat.mod_lt _ (by norm_num)

theorem sub64_modEq (a b : Nat) : ((sub64 a b : Nat) : Int) ≡ (a : Int) - b [ZMOD 2 ^ 64] := by
  unfold sub64 Int.ModEq
  omega

theorem mul64_modEq (a b : Nat) : ((mul64 a b : Nat) : Int) ≡ (a : Int) * b [ZMOD 2 ^ 64] := by
  unfold mul64 Int.ModEq
  push_cast
  exact Int.emod_emod_of_dvd _ (dvd_refl _)

theorem XInv_step {a b d0 d1 x x1 : Nat} (h : XInv a b d0 d1 x x1) (hd1 : d1 ≠ 0) :
    XInv a b d1 (sub64 d0 (mul64 (d0 / d1) d1)) x1 (sub64 x (mul64 (d0 / d1) x1)) := by
  obtain ⟨s, u, u1, dp, hs, hx, hx1, hxlt, hx1lt, hI2, hg, hc, hc1, hdp, hdu, hor, hd0, hd064⟩ := h
  have hq : d0 / d1 * d1 ≤ d0 := Nat.div_mul_le_self d0 d1
  have hmod : d0 % d1 + d1 * (d0 / d1) = d0 := Nat.mod_add_div d0 d1
  have hd1' : sub64 d0 (mul64 (d0 / d1) d1) = d0 % d1 := by
    rw [mul64_of_lt (by omega), sub64_of_le hq hd064]
    have := Nat.mul_comm (d0 / d1) d1
    omega
  have hd1lt : d1 < d0 := by rw [hdp]; exact Nat.mod_lt _ hd0
  rw [hd1']
  refine ⟨-s, u1, u + (d0 / d1) * u1, d0, ?_, ?_, ?_, hx1lt, sub64_lt _ _, ?_, ?_, ?_, ?_, rfl, ?_,
    Or.inr hd1lt, by omega, by omega⟩
  · rcases hs with h | h <;> simp [h]
  · have : -s * (u1 : Int) = -(s * u1) := by ring
    rw [this]; exact hx1
  · have e : -(-s * ((u + d0 / d1 * u1 : Nat) : Int)) = s * u - (d0 / d1 : Nat) * (-(s * u1)) := by
      push_cast; ring
    rw [e]
    exact (sub64_modEq _ _).trans (hx.sub ((mul64_modEq _ _).trans (Int.ModEq.mul_left _ hx1)))
  · have : d1 * (u + d0 / d1 * u1) + d0 % d1 * u1 = (d0 % d1 + d1 * (d0 / d1)) * u1 + d1 * u := by
      ring
    rw [this, hmod, hI2]
  · rw [← hg, Nat.gcd_comm d1, ← Nat.gcd_rec, Nat.gcd_comm]
  · have : (a : Int) * (-s * u1) = a * (-(s * u1)) := by ring
    rw [this]; exact hc1
  · have e : (a : Int) * (-(-s * ((u + d0 / d1 * u1 : Nat) : Int)))
        = a * (s * u) - (d0 / d1 : Nat) * (a * (-(s * u1))) := by
      push_cast; ring
    have e2 : ((d0 % d1 : Nat) : Int) = d0 - (d0 / d1 : Nat) * d1 := by
      have := congrArg (Nat.cast : Nat → Int) hmod
      push_cast at this ⊢
      linarith
    rw [e, e2]
    exact hc.sub (Int.ModEq.mul_left _ hc1)
  · calc d0 * u1 ≤ d0 * u1 + d1 * u := Nat.le_add_right _ _
      _ = b := hI2

theorem XInv_exit {a b d0 x x1 : Nat} (h : XInv a b d0 0 x x1) :
    d0 = Nat.gcd a b ∧ XPost a b x := by
  obtain ⟨s, u, u1, dp, hs, hx, hx1, hxlt, hx1lt, hI2, hg, hc, hc1, hdp, hdu, hor, hd0, hd064⟩ := h
  have hd : d0 = Nat.gcd a b := by rw [← hg, Nat.gcd_zero_right]
  refine ⟨hd, s, u, hs, hx, hxlt, ?_, ?_⟩
  · rw [← hd]; exact hc
  · intro h1
    rcases hor with h0 | hlt
    · exact Or.inl h0
    · right
      have hd01 : d0 = 1 := by rw [hd, h1]
      have h2 : 2 ≤ dp := by omega
      calc 2 * u ≤ dp * u := Nat.mul_le_mul_right _ h2
        _ ≤ b := hdu

theorem xgcd_loop_spec (a b : Nat) :
    ∀ (fuel d0 d1 x x1 y y1 : Nat), d1 < fuel → XInv a b d0 d1 x x1 →
      ∃ x' y', xgcd_loop fuel d0 d1 x x1 y y1 = some (Nat.gcd a b, x', y') ∧ XPost a b x' := by
  intro fuel
  induction fuel with
  | zero => intro d0 d1 x x1 y y1 h; omega
  | succ fuel ih =>
    intro d0 d1 x x1 y y1 hf hinv
    unfold xgcd_loop
    by_cases hd1 : d1 ≠ 0
    · rw [if_pos hd1]
      have hstep := XInv_step hinv hd1
      have hlt : sub64 d0 (mul64 (d0 / d1) d1) < fuel := by
        obtain ⟨s, u, u1, dp, hs, hx, hx1, hxlt, hx1lt, hI2, hg, hc, hc1, hdp, hdu, hor, hd0, hd064⟩ := hstep
        have : dp % d1 < d1 := Nat.mod_lt _ hd0
        omega
      exact ih _ _ _ _ _ _ hlt hstep
    · rw [if_neg hd1]
      have h0 : d1 = 0 := by omega
      subst h0
      obtain ⟨hd, hpost⟩ := XInv_exit hinv
      exact ⟨x, y, by rw [hd], hpost⟩

theorem xgcd_spec (a b : Nat) (ha64 : a < 2 ^ 64) (hb : 0 < b) (hb64 : b < 2 ^ 64) :
    ∃ x y, xgcd a b = some (Nat.gcd a b, x, y) ∧ XPost a b x := by
  unfold xgcd xgcd_loop
  rw [if_pos (by omega)]
  have hq : a / b * b ≤ a := Nat.div_mul_le_self a b
  have hmod : a % b + b * (a / b) = a := Nat.mod_add_div a b
  have hd1 : sub64 a (mul64 (a / b) b) = a % b := by
    rw [mul64_of_lt (by omega), sub64_of_le hq ha64]
    have := Nat.mul_comm (a / b) b
    omega
  have hx1 : sub64 1 (mul64 (a / b) 0) = 1 := by
    unfold mul64 sub64; simp
  have hlt : a % b < b := Nat.mod_lt _ hb
  simp only [hd1, hx1]
  apply xgcd_loop_spec a b _ _ _ _ _ _ _ hlt
  refine ⟨-1, 0, 1, a, Or.inr rfl, by simp, by simp, by norm_num, by norm_num, by simp, ?_, ?_, ?_,
    rfl, by simp, Or.inl rfl, hb, hb64⟩
  · rw [Nat.gcd_comm b, ← Nat.gcd_rec, Nat.gcd_comm]
  · simp only [Nat.cast_zero, mul_zero]
    simp [Int.ModEq]
  · have : (a : Int) * (-(-1 * ((1 : Nat) : Int))) = a := by simp
    rw [this]
    have : ((a % b : Nat) : Int) = (a : Int) % b := by push_cast; rfl
    rw [this]
    exact (Int.mod_modEq _ _).symm

theorem mul_inv_spec (a m : Nat) (ha : a < 2 ^ 64) (hm : 0 < m) (hm64 : m < 2 ^ 64) :
    ∃ r, mul_inv a m = some r ∧
      (Nat.gcd a m = 1 → r < m ∧ (r * a) % m = 1 % m) ∧ (Nat.gcd a m ≠ 1 → r = 0) := by
  obtain ⟨x, y, hx, s, u, hs, hxu, hxlt, hc, hbound⟩ := xgcd_spec a m ha hm hm64
  have hg64 : Nat.gcd a m < 2 ^ 64 := lt_of_le_of_lt (Nat.gcd_le_right _ hm) hm64
  unfold mul_inv
  rw [hx]
  simp only [Option.bind_eq_bind, Option.some_bind, uint64_of_int64_of hg64]
  by_cases hg : Nat.gcd a m = 1
  · rw [if_pos hg]
    have hb := hbound hg
    rw [hg] at hc
    have hsh : x >>> 63 = x / 2 ^ 63 := Nat.shiftRight_eq_div_pow x 63
    rw [hsh, if_neg (by omega : ¬ m = 0)]
    unfold Int.ModEq at hxu
    by_cases hu0 : u = 0
    · subst hu0
      have hx0 : x = 0 := by
        simp only [Nat.cast_zero, mul_zero] at hxu
        omega
      subst hx0
      have hm1 : m = 1 := by
        simp only [Nat.cast_zero, mul_zero] at hc
        have h1 : (m : Int) ∣ 1 := by
          have := (Int.modEq_iff_dvd.mp hc)
          simpa using this
        have h2 : m ∣ 1 := by exact_mod_cast h1
        exact Nat.dvd_one.mp h2
      subst hm1
      exact ⟨0, by simp, fun _ => by simp, fun h => absurd hg h⟩
    · have hu : 2 * u ≤ m := by
        rcases hb with h | h
        · exact absurd h hu0
        · exact h
      rcases hs with hs1 | hs1
      · subst hs1
        have hxe : x = u := by
          simp only [one_mul] at hxu
          omega
        subst hxe
        refine ⟨x % m, by rw [if_neg (by omega)], fun _ => ⟨Nat.mod_lt _ hm, ?_⟩, fun h => absurd hg h⟩
        have h3 : ((a * x : Nat) : Int) ≡ ((1 : Nat) : Int) [ZMOD m] := by
          push_cast; simpa using hc
        have h4 : a * x ≡ 1 [MOD m] := Int.natCast_modEq_iff.mp h3
        have hxm : x % m = x := Nat.mod_eq_of_lt (by omega)
        rw [hxm, Nat.mul_comm]
        exact h4
      · subst hs1
        have hxe : x = 2 ^ 64 - u := by
          simp only [neg_mul, one_mul] at hxu
          omega
        have hr : add64 x m = m - u := by
          unfold add64; omega
        refine ⟨m - u, by rw [if_pos (by omega), hr], fun _ => ⟨by omega, ?_⟩, fun h => absurd hg h⟩
        have h3 : (((m - u) * a : Nat) : Int) ≡ ((1 : Nat) : Int) [ZMOD m] := by
          have e : (((m - u) * a : Nat) : Int) = (m : Int) * a + a * (-1 * u) := by
            push_cast [Nat.cast_sub (by omega : u ≤ m)]; ring
          rw [e]
          have h5 : (m : Int) * a + a * (-1 * u) ≡ 0 + 1 [ZMOD m] := by
            apply Int.ModEq.add _ hc
            exact (Int.modEq_zero_iff_dvd.mpr (Dvd.intro _ rfl))
          simpa using h5
        exact Int.natCast_modEq_iff.mp h3
  · rw [if_neg hg]
    exact ⟨0, rfl, fun h => absurd h hg, fun _ => rfl⟩

end mRSA

namespace mRSA

theorem pow_mod_loop_eq (m : Nat) : ∀ (fuel a b r : Nat), b < fuel →
    pow_mod_loop fuel a b m r = r * a ^ b % m := by
  intro fuel
  induction fuel with
  | zero => intro a b r h; omega
  | succ fuel ih =>
    intro a b r hb
    unfold pow_mod_loop
    by_cases hb0 : b = 0
    · subst hb0; simp
    · rw [if_neg hb0, ih _ _ _ (by omega)]
      by_cases hodd : b % 2 = 1
      · rw [if_pos hodd]
        have : b = 2 * (b / 2) + 1 := by omega
        conv_rhs => rw [this, pow_succ, pow_mul, sq]
        rw [Nat.mul_mod, Nat.mod_mod, Nat.pow_mod (a * a % m), Nat.mod_mod, ← Nat.pow_mod,
          ← Nat.mul_mod]
        congr 1; ring
      · rw [if_neg hodd]
        have : b = 2 * (b / 2) := by omega
        conv_rhs => rw [this, pow_mul, sq]
        rw [Nat.mul_mod, Nat.pow_mod, Nat.mod_mod, ← Nat.pow_mod, ← Nat.mul_mod]

theorem pow_mod_eq (a b m : Nat) : pow_mod a b m = a ^ b % m := by
  unfold pow_mod
  rw [pow_mod_loop_eq m _ _ _ _ (by omega), Nat.one_mul]

theorem mod_pow_eq_val (a b m : Nat) (hm : m < 2 ^ 64) :
    mod_pow a b m = some (mod_pow_val a b m) := by
  rw [mod_pow_eq a b m hm]
  unfold mod_pow_val
  rw [pow_mod_eq]

theorem prob_loop_eq_val (n a q : Nat) (hn : n < 2 ^ 64) : ∀ (rem i : Nat),
    prob_miller_rabin_loop n a q rem i = some (prob_loop_val n a q rem i) := by
  intro rem
  induction rem with
  | zero => intro i; rfl
  | succ rem ih =>
    intro i
    unfold prob_miller_rabin_loop prob_loop_val
    simp only [mod_pow_eq_val _ _ n hn, Option.bind_eq_bind, Option.some_bind]
    split
    · rfl
    · exact ih _

theorem prob_eq_val (n a k q : Nat) (hn : n < 2 ^ 64) :
    prob_miller_rabin n a k q = some (prob_val n a k q) := by
  unfold prob_miller_rabin prob_val
  simp only [mod_pow_eq_val _ _ n hn, Option.bind_eq_bind, Option.some_bind]
  split
  · rfl
  · exact prob_loop_eq_val n a q hn _ _

theorem all_bases_eq_val (n k q : Nat) (hn : n < 2 ^ 64) : ∀ (bs : List Nat),
    all_bases n k q bs = some (all_bases_val n k q bs) := by
  intro bs
  induction bs with
  | nil => rfl
  | cons a rest ih =>
    unfold all_bases all_bases_val
    simp only [prob_eq_val n a k q hn, Option.bind_eq_bind, Option.some_bind]
    split
    · exact ih
    · rfl

theorem miller_rabin_eq_val (fuel n : Nat) (hn : n < 2 ^ 64) :
    miller_rabin fuel n = miller_rabin_val fuel n := by
  unfold miller_rabin miller_rabin_val
  by_cases h1 : n = 2 ∨ n = 3 ∨ n = 5 ∨ n = 7 ∨ n = 11 ∨ n = 13 ∨
      n = 17 ∨ n = 19 ∨ n = 23 ∨ n = 29 ∨ n = 31 ∨ n = 37
  · rw [if_pos h1, if_pos h1]
  · rw [if_neg h1, if_neg h1]
    by_cases h2 : n % 2 = 0
    · rw [if_pos h2, if_pos h2]
    · rw [if_neg h2, if_neg h2]
      cases hs : strip_twos fuel (sub64 n 1) 0 with
      | none => rfl
      | some kd =>
        obtain ⟨k, d⟩ := kd
        simp only [Option.bind_eq_bind, Option.some_bind]
        rw [mod_pow_eq_val _ _ n hn, Option.some_bind]
        by_cases h3 : mod_pow_val 2 k n = 0
        · rw [if_pos h3, if_pos h3]
        · rw [if_neg h3, if_neg h3, all_bases_eq_val n k _ hn, Option.some_bind]
          by_cases h4 : all_bases_val n k (sub64 n 1 / mod_pow_val 2 k n) bases = true
          · rw [if_pos h4, if_pos h4]
          · rw [if_neg h4, if_neg h4]

theorem miller_rabin_4294967291 : miller_rabin 64 4294967291 = some PRIME := by
  rw [miller_rabin_eq_val _ _ (by norm_num)]
  decide!

theorem miller_rabin_4294967279 : miller_rabin 64 4294967279 = some PRIME := by
  rw [miller_rabin_eq_val _ _ (by norm_num)]
  decide!

theorem generate_pq_equal_primes :
    generate_pq 64 [(4294967291, 4294967291)]
      = some (4294967291, 4294967291, 18446744030759878681) := by
  simp [generate_pq, miller_rabin_4294967291, PRIME, mul64]

theorem generate_pq_distinct_primes :
    generate_pq 64 [(4294967291, 4294967279)]
      = some (4294967291, 4294967279, 18446743979220271189) := by
  simp [generate_pq, miller_rabin_4294967291, miller_rabin_4294967279, PRIME, mul64]

theorem generate_key_equal_primes :
    mRSA_generate_key 64 [(4294967291, 4294967291)] [3]
      = some (3, 2863311527, 18446744030759878681) := by
  unfold mRSA_generate_key
  rw [generate_pq_equal_primes]
  decide!

theorem generate_key_distinct_primes :
    mRSA_generate_key 64 [(4294967291, 4294967279)] [65537]
      = some (65537, 108506947230999203, 18446743979220271189) := by
  unfold mRSA_generate_key
  rw [generate_pq_distinct_primes]
  decide!

end mRSA

namespace mRSA

theorem strip_twos_zero : ∀ (fuel k : Nat), strip_twos fuel 0 k = none := by
  intro fuel
  induction fuel with
  | zero => intro k; rfl
  | succ fuel ih =>
    intro k
    unfold strip_twos
    rw [if_pos (by norm_num)]
    exact ih _

theorem generate_pq_some (fuel : Nat) : ∀ (pqs : List (Nat × Nat)) (p q n : Nat),
    generate_pq fuel pqs = some (p, q, n) →
      (p, q) ∈ pqs ∧ n = mul64 p q ∧ 2 ^ 63 ≤ n ∧
      (∃ tp, miller_rabin fuel p = some tp ∧ tp ≠ 0) ∧
      (∃ tq, miller_rabin fuel q = some tq ∧ tq ≠ 0) := by
  intro pqs
  induction pqs with
  | nil => intro p q n h; simp [generate_pq] at h
  | cons hd tl ih =>
    intro p q n h
    obtain ⟨p0, q0⟩ := hd
    have next : generate_pq fuel tl = some (p, q, n) →
        (p, q) ∈ (p0, q0) :: tl ∧ n = mul64 p q ∧ 2 ^ 63 ≤ n ∧
        (∃ tp, miller_rabin fuel p = some tp ∧ tp ≠ 0) ∧
        (∃ tq, miller_rabin fuel q = some tq ∧ tq ≠ 0) := by
      intro h'
      obtain ⟨hm, rest⟩ := ih p q n h'
      exact ⟨List.mem_cons_of_mem _ hm, rest⟩
    unfold generate_pq at h
    simp only [Option.bind_eq_bind] at h
    cases hp : miller_rabin fuel p0 with
    | none => rw [hp] at h; simp at h
    | some tp =>
      rw [hp, Option.some_bind] at h
      by_cases htp : tp = 0
      · rw [if_pos htp] at h; exact next h
      · rw [if_neg htp] at h
        cases hq : miller_rabin fuel q0 with
        | none => rw [hq] at h; simp at h
        | some tq =>
          rw [hq, Option.some_bind] at h
          by_cases htq : tq = 0
          · rw [if_pos htq] at h; exact next h
          · rw [if_neg htq] at h
            by_cases hn : mul64 p0 q0 < 0x8000000000000000
            · rw [if_pos hn] at h; exact next h
            · rw [if_neg hn] at h
              simp only [Option.some.injEq, Prod.mk.injEq] at h
              obtain ⟨rfl, rfl, rfl⟩ := h
              refine ⟨List.mem_cons_self _ _, rfl, by omega, ⟨tp, hp, htp⟩, ⟨tq, hq, htq⟩⟩

theorem generate_ed_some (carmike : Nat) : ∀ (es : List Nat) (e d : Nat),
    generate_ed carmike es = some (e, d) →
      carmike ≠ 0 ∧ (∃ r ∈ es, e = r % carmike) ∧ gcd e carmike = some 1 ∧
      mul_inv e carmike = some d ∧ d ≠ 0 := by
  intro es
  induction es with
  | nil => intro e d h; simp [generate_ed] at h
  | cons r tl ih =>
    intro e d h
    have next : generate_ed carmike tl = some (e, d) →
        carmike ≠ 0 ∧ (∃ r' ∈ r :: tl, e = r' % carmike) ∧ gcd e carmike = some 1 ∧
        mul_inv e carmike = some d ∧ d ≠ 0 := by
      intro h'
      obtain ⟨h0, ⟨r', hr', he⟩, rest⟩ := ih e d h'
      exact ⟨h0, ⟨r', List.mem_cons_of_mem _ hr', he⟩, rest⟩
    unfold generate_ed at h
    by_cases hc : carmike = 0
    · rw [if_pos hc] at h; simp at h
    · rw [if_neg hc] at h
      simp only [Option.bind_eq_bind] at h
      cases hg : gcd (r % carmike) carmike with
      | none => rw [hg] at h; simp at h
      | some g =>
        rw [hg, Option.some_bind] at h
        by_cases hg1 : g ≠ 1
        · rw [if_pos hg1] at h; exact next h
        · rw [if_neg hg1] at h
          have hg1' : g = 1 := by omega
          subst hg1'
          cases hd : mul_inv (r % carmike) carmike with
          | none => rw [hd] at h; simp at h
          | some d0 =>
            rw [hd, Option.some_bind] at h
            by_cases hd0 : d0 = 0
            · rw [if_pos hd0] at h; exact next h
            · rw [if_neg hd0] at h
              simp only [Option.some.injEq, Prod.mk.injEq] at h
              obtain ⟨rfl, rfl⟩ := h
              exact ⟨hc, ⟨r, List.mem_cons_self _ _, rfl⟩, hg, hd, hd0⟩

theorem carmichael_eq (p q : Nat) (hp : 1 < p) (hq : 0 < q) (hp32 : p < 2 ^ 32)
    (hq32 : q < 2 ^ 32) : carmichael p q = some (Nat.lcm (p - 1) (q - 1)) := by
  have h1 : sub64 p 1 = p - 1 := by unfold sub64; omega
  have h2 : sub64 q 1 = q - 1 := by unfold sub64; omega
  unfold carmichael
  rw [h1, h2, gcd_eq _ _ (by omega) (by omega), mod_mul_zero]
  simp only [Option.bind_eq_bind, Option.some_bind]
  have hlt : (p - 1) * (q - 1) < 2 ^ 64 := by
    calc (p - 1) * (q - 1) < 2 ^ 32 * 2 ^ 32 := Nat.mul_lt_mul'' (by omega) (by omega)
      _ = 2 ^ 64 := by norm_num
  rw [Nat.mod_eq_of_lt hlt]
  by_cases hi : Nat.gcd (p - 1) (q - 1) = 0
  · have := Nat.eq_zero_of_gcd_eq_zero_left hi
    omega
  · rw [if_neg hi]; rfl

theorem generate_key_some (fuel : Nat) (pqs : List (Nat × Nat)) (es : List Nat) (e d n : Nat)
    (h32 : ∀ pq ∈ pqs, pq.1 < 2 ^ 32 ∧ pq.2 < 2 ^ 32)
    (h : mRSA_generate_key fuel pqs es = some (e, d, n)) :
    ∃ p q, (p, q) ∈ pqs ∧ n = p * q ∧ 2 ^ 63 ≤ n ∧ 2 ^ 31 < p ∧ 2 ^ 31 < q ∧
      (∃ r ∈ es, e = r % Nat.lcm (p - 1) (q - 1)) ∧ 0 < Nat.lcm (p - 1) (q - 1) ∧
      Nat.lcm (p - 1) (q - 1) < 2 ^ 64 ∧
      gcd e (Nat.lcm (p - 1) (q - 1)) = some 1 ∧
      mul_inv e (Nat.lcm (p - 1) (q - 1)) = some d ∧ d ≠ 0 := by
  unfold mRSA_generate_key at h
  simp only [Option.bind_eq_bind] at h
  cases hpq : generate_pq fuel pqs with
  | none => rw [hpq] at h; simp at h
  | some r =>
    obtain ⟨p, q, n0⟩ := r
    rw [hpq, Option.some_bind] at h
    obtain ⟨hmem, hn, hn63, _, _⟩ := generate_pq_some fuel pqs p q n0 hpq
    obtain ⟨hp32, hq32⟩ := h32 (p, q) hmem
    simp only at hp32 hq32
    have hpq64 : p * q < 2 ^ 64 := by
      calc p * q < 2 ^ 32 * 2 ^ 32 := Nat.mul_lt_mul'' hp32 hq32
        _ = 2 ^ 64 := by norm_num
    rw [mul64_of_lt hpq64] at hn
    have hp31 : 2 ^ 31 < p := by
      by_contra hc
      have : p * q ≤ 2 ^ 31 * (2 ^ 32 - 1) := Nat.mul_le_mul (by omega) (by omega)
      norm_num at this
      omega
    have hq31 : 2 ^ 31 < q := by
      by_contra hc
      have : p * q ≤ (2 ^ 32 - 1) * 2 ^ 31 := Nat.mul_le_mul (by omega) (by omega)
      norm_num at this
      omega
    rw [carmichael_eq p q (by omega) (by omega) hp32 hq32, Option.some_bind] at h
    cases hed : generate_ed (Nat.lcm (p - 1) (q - 1)) es with
    | none => rw [hed] at h; simp at h
    | some r2 =>
      obtain ⟨e0, d0⟩ := r2
      rw [hed, Option.some_bind] at h
      simp only [Option.some.injEq, Prod.mk.injEq] at h
      obtain ⟨rfl, rfl, rfl⟩ := h
      obtain ⟨hc0, hr, hg, hd, hd0⟩ := generate_ed_some _ es e0 d0 hed
      have hlcm64 : Nat.lcm (p - 1) (q - 1) < 2 ^ 64 := by
        have h1 : Nat.lcm (p - 1) (q - 1) ≤ (p - 1) * (q - 1) := by
          unfold Nat.lcm; exact Nat.div_le_self _ _
        have h2 : (p - 1) * (q - 1) < 2 ^ 32 * 2 ^ 32 := Nat.mul_lt_mul'' (by omega) (by omega)
        norm_num at h2
        omega
      exact ⟨p, q, hmem, hn, hn63, hp31, hq31, hr, Nat.pos_of_ne_zero hc0, hlcm64, hg, hd, hd0⟩

end mRSA

namespace mRSA

/-! ## The primality oracle on primes and its termination -/

theorem strip_twos_spec : ∀ (fuel d k : Nat), 0 < d → d < 2 ^ fuel → k + fuel < 2 ^ 64 →
    ∃ j q, strip_twos fuel d k = some (k + j, q) ∧ d = 2 ^ j * q ∧ q % 2 = 1 := by
  intro fuel
  induction fuel with
  | zero => intro d k h0 h1; simp at h1; omega
  | succ fuel ih =>
    intro d k h0 h1 h2
    unfold strip_twos
    by_cases hd : d % 2 = 0
    · rw [if_pos hd]
      have hk : add64 k 1 = k + 1 := add64_of_lt (by omega)
      have hs : d >>> 1 = d / 2 := by rw [Nat.shiftRight_eq_div_pow]
      have hlt : d / 2 < 2 ^ fuel := by
        rw [Nat.div_lt_iff_lt_mul (by norm_num)]
        rw [pow_succ] at h1
        exact h1
      obtain ⟨j, q, h3, h4, h5⟩ := ih (d / 2) (k + 1) (by omega) hlt (by omega)
      refine ⟨j + 1, q, ?_, ?_, h5⟩
      · rw [hk, hs, h3]
        congr 2
        omega
      · have : d = 2 * (d / 2) := by omega
        rw [this, h4, pow_succ]
        ring
    · rw [if_neg hd]
      exact ⟨0, d, rfl, by simp, by omega⟩

theorem mod_pow_val_pos (a b m : Nat) (hb : b ≠ 0) (hm : m ≠ 0) :
    mod_pow_val a b m = a ^ b % m := by
  unfold mod_pow_val
  rw [if_neg hb, if_neg hm, pow_mod_eq]

theorem mod_pow_val_two (i n : Nat) (h : 2 ^ i < n) : mod_pow_val 2 i n = 2 ^ i := by
  by_cases hi : i = 0
  · subst hi; rfl
  · rw [mod_pow_val_pos 2 i n hi (Nat.ne_of_gt (Nat.lt_of_le_of_lt (Nat.zero_le _) h)),
      Nat.mod_eq_of_lt h]

/-- A square root of one in a field is `1` or `-1`, repeatedly. -/
theorem root_chain {F : Type} [Field F] : ∀ (k : Nat) (x : F), x ^ 2 ^ k = 1 →
    x = 1 ∨ ∃ i, i < k ∧ x ^ 2 ^ i = -1 := by
  intro k
  induction k with
  | zero => intro x h; left; simpa using h
  | succ k ih =>
    intro x h
    have h2 : (x ^ 2 ^ k) * (x ^ 2 ^ k) = 1 := by
      rw [← pow_two, ← pow_mul, ← pow_succ]; exact h
    rcases mul_self_eq_one_iff.mp h2 with h1 | h1
    · rcases ih x h1 with h3 | ⟨i, hi, h3⟩
      · exact Or.inl h3
      · exact Or.inr ⟨i, by omega, h3⟩
    · exact Or.inr ⟨k, by omega, h1⟩

/-- The strong probable-prime property of a prime `n` with `n - 1 = 2^k * q`. -/
theorem strong_probable_prime (n a k q : Nat) (hp : n.Prime) (ha : ¬ n ∣ a)
    (hkq : n - 1 = 2 ^ k * q) :
    a ^ q % n = 1 ∨ ∃ i, i < k ∧ a ^ (q * 2 ^ i) % n = n - 1 := by
  haveI : Fact n.Prime := ⟨hp⟩
  have hn2 : 2 ≤ n := hp.two_le
  have ha0 : (a : ZMod n) ≠ 0 := by
    rw [Ne, ZMod.natCast_zmod_eq_zero_iff_dvd]
    exact ha
  have hf : ((a : ZMod n) ^ q) ^ 2 ^ k = 1 := by
    rw [← pow_mul, Nat.mul_comm, ← hkq]
    exact ZMod.pow_card_sub_one_eq_one ha0
  have hm1 : ((n - 1 : Nat) : ZMod n) = -1 := by
    rw [Nat.cast_sub (by omega), ZMod.natCast_self, Nat.cast_one, zero_sub]
  rcases root_chain k ((a : ZMod n) ^ q) hf with h1 | ⟨i, hi, h1⟩
  · left
    have : ((a ^ q : Nat) : ZMod n) = ((1 : Nat) : ZMod n) := by
      rw [Nat.cast_pow, Nat.cast_one]; exact h1
    have := (ZMod.natCast_eq_natCast_iff' _ _ _).mp this
    rw [this, Nat.mod_eq_of_lt (by omega)]
  · right
    refine ⟨i, hi, ?_⟩
    have : ((a ^ (q * 2 ^ i) : Nat) : ZMod n) = ((n - 1 : Nat) : ZMod n) := by
      rw [Nat.cast_pow, pow_mul, hm1]; exact h1
    have := (ZMod.natCast_eq_natCast_iff' _ _ _).mp this
    rw [this, Nat.mod_eq_of_lt (by omega)]

theorem prob_loop_val_hit (n a q : Nat) : ∀ (rem i j : Nat), i ≤ j → j < i + rem →
    mod_pow_val (mod_pow_val a q n) (mod_pow_val 2 j n) n = sub64 n 1 →
    prob_loop_val n a q rem i = 1 := by
  intro rem
  induction rem with
  | zero => intro i j h1 h2; omega
  | succ rem ih =>
    intro i j h1 h2 h3
    unfold prob_loop_val
    by_cases hc : mod_pow_val (mod_pow_val a q n) (mod_pow_val 2 i n) n = sub64 n 1
    · rw [if_pos hc]
    · rw [if_neg hc]
      have hij : i ≠ j := fun h => hc (h ▸ h3)
      exact ih (i + 1) j (by omega) (by omega) h3

theorem prob_val_prime (n a k q : Nat) (hn : n < 2 ^ 64) (hp : n.Prime) (ha : ¬ n ∣ a)
    (hkq : n - 1 = 2 ^ k * q) (hq : q % 2 = 1) : prob_val n a k q = 1 := by
  have hn2 : 2 ≤ n := hp.two_le
  have hq0 : q ≠ 0 := by omega
  have hqpos : 1 ≤ q := by omega
  have hx : mod_pow_val a q n = a ^ q % n := mod_pow_val_pos a q n hq0 (by omega)
  unfold prob_val
  rcases strong_probable_prime n a k q hp ha hkq with h1 | ⟨i, hi, h1⟩
  · rw [hx, if_pos h1]
  · by_cases h0 : mod_pow_val a q n = 1
    · rw [if_pos h0]
    · rw [if_neg h0]
      apply prob_loop_val_hit n a q k 0 i (by omega) (by omega)
      have h2i : 2 ^ i < n := by
        have h1' : 2 ^ i < 2 ^ k := Nat.pow_lt_pow_right (by norm_num) hi
        have h2' : 2 ^ k * 1 ≤ 2 ^ k * q := Nat.mul_le_mul_left _ hqpos
        omega
      rw [mod_pow_val_two i n h2i, hx,
        mod_pow_val_pos _ _ n (by positivity) (by omega), ← Nat.pow_mod, ← pow_mul, h1,
        sub64_of_le (by omega) hn]

theorem all_bases_val_true (n k q : Nat) : ∀ (bs : List Nat),
    (∀ a ∈ bs, prob_val n a k q = 1) → all_bases_val n k q bs = true := by
  intro bs
  induction bs with
  | nil => intro _; rfl
  | cons a rest ih =>
    intro h
    unfold all_bases_val
    rw [if_pos (by rw [h a (List.mem_cons_self _ _)]; decide)]
    exact ih (fun b hb => h b (List.mem_cons_of_mem _ hb))

/-- The decomposition `n - 1 = 2^k * q` that `miller_rabin` computes for an odd `n > 1`. -/
theorem miller_rabin_decomposition (n : Nat) (hn : n < 2 ^ 64) (h1 : 1 < n)
    (hodd : n % 2 = 1) :
    ∃ k q, 0 < k ∧ q % 2 = 1 ∧ n - 1 = 2 ^ k * q ∧
      strip_twos 64 (sub64 n 1) 0 = some (k, q) ∧ mod_pow_val 2 k n = 2 ^ k ∧
      sub64 n 1 / mod_pow_val 2 k n = q := by
  have hd : sub64 n 1 = n - 1 := sub64_of_le (by omega) hn
  obtain ⟨j, q, h3, h4, h5⟩ := strip_twos_spec 64 (n - 1) 0 (by omega) (by omega) (by norm_num)
  rw [Nat.zero_add] at h3
  have hj : 0 < j := by
    rcases Nat.eq_zero_or_pos j with h0 | h0
    · subst h0
      simp at h4
      omega
    · exact h0
  have hqpos : 1 ≤ q := by omega
  have h2j : 2 ^ j < n := by
    have h2' : 2 ^ j * 1 ≤ 2 ^ j * q := Nat.mul_le_mul_left _ hqpos
    omega
  have hv : mod_pow_val 2 j n = 2 ^ j := mod_pow_val_two j n h2j
  refine ⟨j, q, hj, h5, h4, by rw [hd]; exact h3, hv, ?_⟩
  rw [hd, hv, h4, Nat.mul_div_cancel_left _ (by positivity)]

end mRSA

namespace RSAPSS

theorem mpz_import_foldl (bs : List Byte) (acc : Nat) :
    bs.foldl (fun a b => a * 256 + b.val) acc = acc * 256 ^ bs.length + mpz_import bs := by
  induction bs generalizing acc with
  | nil => simp [mpz_import]
  | cons b rest ih =>
    unfold mpz_import
    simp only [List.foldl_cons, List.length_cons]
    rw [ih, ih (0 * 256 + b.val)]
    ring

theorem mpz_import_nil : mpz_import [] = 0 := rfl

theorem mpz_import_cons (b : Byte) (bs : List Byte) :
    mpz_import (b :: bs) = b.val * 256 ^ bs.length + mpz_import bs := by
  unfold mpz_import
  simp only [List.foldl_cons]
  rw [mpz_import_foldl]
  unfold mpz_import
  ring_nf

theorem mpz_import_append (as bs : List Byte) :
    mpz_import (as ++ bs) = mpz_import as * 256 ^ bs.length + mpz_import bs := by
  unfold mpz_import
  rw [List.foldl_append, mpz_import_foldl]
  rfl

theorem mpz_import_lt (bs : List Byte) : mpz_import bs < 256 ^ bs.length := by
  induction bs with
  | nil => simp [mpz_import]
  | cons b rest ih =>
    rw [mpz_import_cons, List.length_cons, pow_succ]
    have hb : b.val < 256 := b.isLt
    nlinarith

theorem be_bytes_length (len v : Nat) : (be_bytes len v).length = len := by
  induction len with
  | zero => rfl
  | succ len ih => simp [be_bytes, ih]

theorem ofNat_val (x : Nat) : (Fin.ofNat x : Byte).val = x % 256 := rfl

theorem mpz_import_be_bytes (len v : Nat) : mpz_import (be_bytes len v) = v % 256 ^ len := by
  induction len with
  | zero => simp [be_bytes, mpz_import, Nat.mod_one]
  | succ len ih =>
    rw [be_bytes, mpz_import_cons, be_bytes_length, ih, ofNat_val, pow_succ]
    rw [Nat.mod_mul, Nat.mul_comm (256 ^ len)]
    ring

theorem be_bytes_congr (len : Nat) : ∀ (v w : Nat), v % 256 ^ len = w % 256 ^ len →
    be_bytes len v = be_bytes len w := by
  induction len with
  | zero => intro v w _; rfl
  | succ len ih =>
    intro v w h
    have hlow : v % 256 ^ len = w % 256 ^ len := by
      have h1 := congrArg (fun x => x % 256 ^ len) h
      simp only at h1
      rwa [pow_succ, Nat.mod_mul_right_mod, Nat.mod_mul_right_mod] at h1
    have hhigh : v / 256 ^ len % 256 = w / 256 ^ len % 256 := by
      rw [← Nat.mod_mul_left_div_self, ← Nat.mod_mul_left_div_self w, Nat.mul_comm, ← pow_succ, h]
    unfold be_bytes
    rw [ih v w hlow]
    congr 1
    apply Fin.ext
    rw [ofNat_val, ofNat_val, hhigh]

theorem be_bytes_mod (len v : Nat) : be_bytes len (v % 256 ^ len) = be_bytes len v :=
  be_bytes_congr len _ _ (Nat.mod_mod _ _)

theorem be_bytes_mpz_import (bs : List Byte) : be_bytes bs.length (mpz_import bs) = bs := by
  induction bs with
  | nil => rfl
  | cons b rest ih =>
    have hR := mpz_import_lt rest
    have hpos : 0 < 256 ^ rest.length := Nat.pow_pos (by norm_num)
    rw [List.length_cons, be_bytes, mpz_import_cons]
    congr 1
    · apply Fin.ext
      rw [ofNat_val, Nat.add_comm, Nat.add_mul_div_right _ _ hpos, Nat.div_eq_of_lt hR,
        Nat.zero_add]
      exact Nat.mod_eq_of_lt b.isLt
    · have hc : be_bytes rest.length (b.val * 256 ^ rest.length + mpz_import rest)
          = be_bytes rest.length (mpz_import rest) := by
        apply be_bytes_congr
        rw [Nat.add_comm, Nat.add_mul_mod_self_right]
      rw [hc, ih]

theorem mpz_export_length (size op : Nat) (out : List Byte) (h : mpz_export size op = some out) :
    out = [] ∨ out.length = size := by
  unfold mpz_export at h
  split at h
  · left; exact (Option.some.inj h).symm
  · split at h
    · right; rw [← Option.some.inj h, be_bytes_length]
    · simp at h

theorem mpz_export_pos (size op : Nat) (h0 : op ≠ 0) (hlt : op < 256 ^ size) :
    mpz_export size op = some (be_bytes size op) := by
  unfold mpz_export
  rw [if_neg h0, if_pos hlt]

theorem store_same_length (buf data : List Byte) (h : data.length = buf.length) :
    store buf data = data := by
  unfold store
  rw [h, List.drop_length, List.append_nil]

end RSAPSS

namespace RSAPSS

theorem pow_modEq_prime (r : Nat) (hr : r.Prime) (t x : Nat) (ht : 0 < t) (hdvd : r - 1 ∣ t - 1) :
    x ^ t ≡ x [MOD r] := by
  haveI : Fact r.Prime := ⟨hr⟩
  rw [← ZMod.natCast_eq_natCast_iff]
  push_cast
  obtain ⟨k, hk⟩ := hdvd
  have ht' : t = (r - 1) * k + 1 := by omega
  by_cases hx : (x : ZMod r) = 0
  · rw [hx, zero_pow (by omega)]
  · rw [ht', pow_succ, pow_mul, ZMod.pow_card_sub_one_eq_one hx, one_pow, one_mul]

theorem rsa_correct (p q : Nat) (hp : p.Prime) (hq : q.Prime) (hpq : p ≠ q) (e d : Nat)
    (hed : e * d ≡ 1 [MOD Nat.lcm (p - 1) (q - 1)]) (x : Nat) :
    x ^ (e * d) ≡ x [MOD p * q] := by
  have hp2 := hp.two_le
  have hq2 := hq.two_le
  have hpos : 0 < e * d := by
    by_contra h0
    have h0' : e * d = 0 := by omega
    rw [h0'] at hed
    have h1 : Nat.lcm (p - 1) (q - 1) ∣ 1 := by
      have := (Nat.modEq_iff_dvd' (Nat.zero_le 1)).mp hed
      simpa using this
    have h2 : Nat.lcm (p - 1) (q - 1) = 1 := Nat.dvd_one.mp h1
    have h3 : p - 1 ∣ 1 := by
      have := Nat.dvd_lcm_left (p - 1) (q - 1)
      rwa [h2] at this
    have h4 : q - 1 ∣ 1 := by
      have := Nat.dvd_lcm_right (p - 1) (q - 1)
      rwa [h2] at this
    have h5 := Nat.dvd_one.mp h3
    have h6 := Nat.dvd_one.mp h4
    omega
  have hl : Nat.lcm (p - 1) (q - 1) ∣ e * d - 1 :=
    (Nat.modEq_iff_dvd' (by omega)).mp hed.symm
  have hP : x ^ (e * d) ≡ x [MOD p] :=
    pow_modEq_prime p hp _ x hpos (dvd_trans (Nat.dvd_lcm_left _ _) hl)
  have hQ : x ^ (e * d) ≡ x [MOD q] :=
    pow_modEq_prime q hq _ x hpos (dvd_trans (Nat.dvd_lcm_right _ _) hl)
  exact (Nat.modEq_and_modEq_iff_modEq_mul ((Nat.coprime_primes hp hq).mpr hpq)).mp ⟨hP, hQ⟩

/-- A value below a square-free modulus `p * q` whose power vanishes modulo `p * q` is zero. -/
theorem pow_mod_ne_zero (p q : Nat) (hp : p.Prime) (hq : q.Prime) (hpq : p ≠ q) (x k : Nat)
    (hx0 : x ≠ 0) (hx : x < p * q) : x ^ k % (p * q) ≠ 0 := by
  intro h
  have hdvd : p * q ∣ x ^ k := Nat.dvd_of_mod_eq_zero h
  have h1 : p ∣ x := hp.dvd_of_dvd_pow (dvd_trans (Dvd.intro _ rfl) hdvd)
  have h2 : q ∣ x := hq.dvd_of_dvd_pow (dvd_trans (Dvd.intro_left _ rfl) hdvd)
  have h3 : p * q ∣ x :=
    Nat.Coprime.mul_dvd_of_dvd_of_dvd ((Nat.coprime_primes hp hq).mpr hpq) h1 h2
  have := Nat.le_of_dvd (Nat.pos_of_ne_zero hx0) h3
  omega

end RSAPSS

namespace RSAPSS

theorem clear_byte_val : ∀ b : Byte,
    (if b >>> 7 ≠ 0 then b &&& 0x7f else b).val = b.val % 128 := by
  decide!

theorem clear_byte_top : ∀ b : Byte,
    ((if b >>> 7 ≠ 0 then b &&& 0x7f else b) >>> 7) = 0 := by
  decide!

theorem clear_top_bit_append (a b : List Byte) (ha : a ≠ []) :
    clear_top_bit (a ++ b) = clear_top_bit a ++ b := by
  cases a with
  | nil => exact absurd rfl ha
  | cons x rest => rfl

theorem clear_top_bit_length (a : List Byte) : (clear_top_bit a).length = a.length := by
  cases a with
  | nil => rfl
  | cons x rest => rfl

theorem pow_256 (r : Nat) : 256 ^ r = 2 ^ (8 * r) := by
  rw [pow_mul]; norm_num

theorem mpz_import_clear_top_bit (bs : List Byte) (hl : bs ≠ []) :
    mpz_import (clear_top_bit bs) = mpz_import bs % 2 ^ (8 * bs.length - 1) := by
  cases bs with
  | nil => exact absurd rfl hl
  | cons b rest =>
    have hR := mpz_import_lt rest
    have hpos : 0 < 256 ^ rest.length := Nat.pow_pos (by norm_num)
    have hpow : 2 ^ (8 * (b :: rest).length - 1) = 128 * 256 ^ rest.length := by
      rw [List.length_cons, pow_256]
      have : 8 * (rest.length + 1) - 1 = 8 * rest.length + 7 := by omega
      rw [this, pow_add]; ring
    unfold clear_top_bit
    rw [mpz_import_cons, mpz_import_cons, clear_byte_val, hpow]
    have hb : b.val = 128 * (b.val / 128) + b.val % 128 := (Nat.div_add_mod _ _).symm
    have hsplit : b.val * 256 ^ rest.length + mpz_import rest
        = (b.val % 128 * 256 ^ rest.length + mpz_import rest)
          + (128 * 256 ^ rest.length) * (b.val / 128) := by
      conv_lhs => rw [hb]
      ring
    have h128 : b.val % 128 < 128 := Nat.mod_lt _ (by norm_num)
    have hle : (b.val % 128 + 1) * 256 ^ rest.length ≤ 128 * 256 ^ rest.length :=
      Nat.mul_le_mul_right _ (by omega)
    have he : (b.val % 128 + 1) * 256 ^ rest.length
        = b.val % 128 * 256 ^ rest.length + 256 ^ rest.length := by ring
    have hlt : b.val % 128 * 256 ^ rest.length + mpz_import rest < 128 * 256 ^ rest.length := by
      omega
    rw [hsplit, Nat.add_mul_mod_self_left, Nat.mod_eq_of_lt hlt]

theorem xor_clear_xor (M Dv k : Nat) (hD : Dv < 2 ^ k) :
    ((M ^^^ Dv) % 2 ^ k) ^^^ M = Dv + (M / 2 ^ k) * 2 ^ k := by
  apply Nat.eq_of_testBit_eq
  intro i
  have hR : Dv + (M / 2 ^ k) * 2 ^ k = 2 ^ k * (M / 2 ^ k) + Dv := by ring
  rw [hR, Nat.testBit_mul_pow_two_add _ hD, Nat.testBit_xor, Nat.testBit_mod_two_pow,
    Nat.testBit_xor]
  by_cases hi : i < k
  · simp only [hi, decide_True, Bool.true_and, if_true]
    cases M.testBit i <;> cases Dv.testBit i <;> rfl
  · simp only [hi, decide_False, Bool.false_and, Bool.false_xor, if_false]
    rw [← Nat.shiftRight_eq_div_pow, Nat.testBit_shiftRight]
    congr 1
    omega

theorem mpz_import_replicate_zero (z : Nat) (t : List Byte) :
    mpz_import (List.replicate z (0 : Byte) ++ t) = mpz_import t := by
  induction z with
  | zero => rfl
  | succ z ih =>
    rw [List.replicate_succ, List.cons_append, mpz_import_cons, ih]
    simp

end RSAPSS

namespace RSAPSS

theorem wf_sizes (c : Config) (h : c.WellFormed) :
    c.RSAKEYSIZE / 8 = c.DBSIZE / 8 + c.SHASIZE / 8 + 1 ∧ 0 < c.SHASIZE / 8 ∧
      c.RSAKEYSIZE / 8 < 2 ^ 28 ∧ c.RSAKEYSIZE = 8 * (c.RSAKEYSIZE / 8) ∧
      c.SHASIZE = 8 * (c.SHASIZE / 8) ∧ c.MPRSIZE / 8 = 8 + 2 * (c.SHASIZE / 8) := by
  obtain ⟨h1, h2, h3, h4, h5⟩ := h
  unfold Config.DBSIZE Config.MPRSIZE
  omega

theorem length_flatMap_const {α : Type} (f : α → List Byte) (k : Nat)
    (hf : ∀ x, (f x).length = k) : ∀ l : List α, (l.flatMap f).length = l.length * k := by
  intro l
  induction l with
  | nil => simp
  | cons x rest ih =>
    rw [List.flatMap_cons, List.length_append, ih, hf, List.length_cons]
    ring

theorem mgf_in_eq (seed : List Byte) (seedLen i : Nat) (h : seedLen + 4 < 2 ^ 32) :
    mgf_in seed seedLen i = seed.take seedLen ++ be_bytes 4 i := by
  unfold mgf_in
  rw [Nat.mod_eq_of_lt h]
  apply List.take_of_length_le
  rw [List.length_append, be_bytes_length, List.length_take]
  omega

theorem mgf_blocks_length (sha : List Byte → List Byte) (h : Nat)
    (hsha : ∀ x, (sha x).length = h) (seed : List Byte) (seedLen count : Nat) :
    (mgf_blocks sha seed seedLen count).length = count * h := by
  unfold mgf_blocks
  rw [length_flatMap_const _ h (fun i => hsha _), List.length_range]

theorem mgf_count_eq (c : Config) (maskLen : Nat) (hh : 0 < c.SHASIZE / 8)
    (hle : maskLen ≤ (2 ^ 32 - 1) * (c.SHASIZE / 8)) :
    mgf_count c maskLen
        = maskLen / (c.SHASIZE / 8) + (if maskLen % (c.SHASIZE / 8) ≠ 0 then 1 else 0) ∧
      maskLen ≤ mgf_count c maskLen * (c.SHASIZE / 8) := by
  unfold mgf_count
  generalize c.SHASIZE / 8 = k at hh hle ⊢
  have hmod : k * (maskLen / k) + maskLen % k = maskLen := Nat.div_add_mod _ _
  have hmodlt : maskLen % k < k := Nat.mod_lt _ hh
  generalize maskLen / k = q at hmod ⊢
  generalize maskLen % k = r at hmod hmodlt ⊢
  have e1 : (q + 1) * k = k * q + k := by ring
  have hq : r ≠ 0 → q + 1 < 2 ^ 32 := by
    intro hr
    by_contra hcon
    have : k * (2 ^ 32 - 1) ≤ k * q := Nat.mul_le_mul_left _ (by omega)
    omega
  have hq0 : q < 2 ^ 32 := by
    by_contra hcon
    have : k * 2 ^ 32 ≤ k * q := Nat.mul_le_mul_left _ (by omega)
    omega
  by_cases h0 : r ≠ 0
  · rw [if_pos h0, Nat.mod_eq_of_lt (hq h0)]
    exact ⟨rfl, by omega⟩
  · rw [if_neg h0, Nat.add_zero, Nat.mod_eq_of_lt hq0]
    refine ⟨rfl, ?_⟩
    rw [Nat.mul_comm]
    omega

theorem mgf_some (c : Config) (sha : List Byte → List Byte) (hwf : c.WellFormed)
    (hsha : ∀ x, (sha x).length = c.SHASIZE / 8) (seed : List Byte) :
    ∃ mask, mgf c sha seed (c.SHASIZE / 8) (c.DBSIZE / 8) = some mask ∧
      mask.length = c.DBSIZE / 8 := by
  obtain ⟨hW, hh, hW28, _, _, _⟩ := wf_sizes c hwf
  have hlt : c.DBSIZE / 8 ≤ (2 ^ 32 - 1) * (c.SHASIZE / 8) := by
    have : (2 ^ 32 - 1) * 1 ≤ (2 ^ 32 - 1) * (c.SHASIZE / 8) := Nat.mul_le_mul_left _ hh
    omega
  obtain ⟨_, hge⟩ := mgf_count_eq c (c.DBSIZE / 8) hh hlt
  have hlen := mgf_blocks_length sha (c.SHASIZE / 8) hsha seed (c.SHASIZE / 8)
    (mgf_count c (c.DBSIZE / 8))
  unfold mgf
  simp only
  rw [if_neg (by omega), if_neg (by omega), if_neg (by rw [hlen]; omega)]
  refine ⟨_, rfl, ?_⟩
  rw [List.length_take, hlen]
  omega

end RSAPSS

namespace RSAPSS

/-- The data block `DB = 0x00 ... 0x00 || 0x01 || salt` of `dbLen` bytes. -/
theorem dB_length (h L : Nat) (salt : List Byte) (hL : h + 1 ≤ L) (hs : salt.length = h) :
    (List.replicate (L - h - 1) (0 : Byte) ++ [1] ++ salt).length = L := by
  simp only [List.length_append, List.length_replicate, List.length_singleton, hs]
  omega

theorem dB_import_lt (h L : Nat) (salt : List Byte) (hs : salt.length = h) :
    mpz_import (List.replicate (L - h - 1) (0 : Byte) ++ [1] ++ salt) < 256 ^ (h + 1) := by
  rw [List.append_assoc, mpz_import_replicate_zero]
  have := mpz_import_lt ([1] ++ salt)
  simp only [List.length_append, List.length_singleton, hs] at this
  rwa [Nat.add_comm]

theorem dB_import_pos (h L : Nat) (salt : List Byte) :
    0 < mpz_import (List.replicate (L - h - 1) (0 : Byte) ++ [1] ++ salt) := by
  rw [List.append_assoc, mpz_import_replicate_zero, List.singleton_append, mpz_import_cons]
  have : 0 < 256 ^ salt.length := Nat.pow_pos (by norm_num)
  have h1 : ((1 : Byte).val) = 1 := rfl
  rw [h1]
  omega

/-- The data block recovered by verification: the signer's `DB` with `0x00` or `0x80` as
its first byte, according to the top bit of the mask. -/
theorem decoded_dB (h L : Nat) (mask salt : List Byte) (hL : h + 2 ≤ L)
    (hm : mask.length = L) (hs : salt.length = h) :
    let dB := List.replicate (L - h - 1) (0 : Byte) ++ [1] ++ salt
    let X := mpz_import mask ^^^ mpz_import dB
    let D := mpz_import (clear_top_bit (be_bytes L X)) ^^^ mpz_import mask
    let t := mpz_import mask / 2 ^ (8 * L - 1)
    t ≤ 1 ∧ D ≠ 0 ∧ D < 256 ^ L ∧
      be_bytes L D = (Fin.ofNat (t * 128) : Byte)
        :: (List.replicate (L - h - 2) (0 : Byte) ++ [1] ++ salt) := by
  intro dB X D t
  have hdlen : dB.length = L := dB_length h L salt (by omega) hs
  have hDv : mpz_import dB < 256 ^ (h + 1) := dB_import_lt h L salt hs
  have hDpos : 0 < mpz_import dB := dB_import_pos h L salt
  have hM : mpz_import mask < 256 ^ L := hm ▸ mpz_import_lt mask
  obtain ⟨L', rfl⟩ : ∃ L', L = L' + 1 := ⟨L - 1, by omega⟩
  have hk : 8 * (L' + 1) - 1 = 8 * L' + 7 := by omega
  have hpowk : 2 ^ (8 * L' + 7) = 128 * 256 ^ L' := by
    rw [pow_add, pow_256]; ring
  have hpowL : 256 ^ (L' + 1) = 2 * (128 * 256 ^ L') := by
    rw [pow_succ]; ring
  have hPpos : 0 < 256 ^ L' := Nat.pow_pos (by norm_num)
  have hDvL' : mpz_import dB < 256 ^ L' :=
    lt_of_lt_of_le hDv (Nat.pow_le_pow_right (by norm_num) (by omega))
  have hXlt : X < 256 ^ (L' + 1) := by
    rw [pow_256] at hM ⊢
    exact Nat.xor_lt_two_pow hM (lt_of_lt_of_le hDvL' (by
      rw [pow_256]; exact Nat.pow_le_pow_right (by norm_num) (by omega)))
  have hbe : be_bytes (L' + 1) X ≠ [] := by
    intro h0
    have := congrArg List.length h0
    rw [be_bytes_length] at this
    simp at this
  have hD : D = mpz_import dB + t * 2 ^ (8 * (L' + 1) - 1) := by
    show mpz_import (clear_top_bit (be_bytes (L' + 1) X)) ^^^ mpz_import mask = _
    rw [mpz_import_clear_top_bit _ hbe, be_bytes_length, mpz_import_be_bytes,
      Nat.mod_eq_of_lt hXlt]
    exact xor_clear_xor _ _ _ (by rw [hk, hpowk]; omega)
  have ht : t ≤ 1 := by
    show mpz_import mask / 2 ^ (8 * (L' + 1) - 1) ≤ 1
    rw [hk, hpowk]
    apply Nat.le_of_lt_succ
    rw [Nat.div_lt_iff_lt_mul (by omega)]
    omega
  rw [hk, hpowk] at hD
  refine ⟨ht, by omega, ?_, ?_⟩
  · rw [hD, hpowL]
    have : t * (128 * 256 ^ L') ≤ 1 * (128 * 256 ^ L') := Nat.mul_le_mul_right _ ht
    omega
  · rw [be_bytes]
    congr 1
    · apply Fin.ext
      rw [ofNat_val, ofNat_val, hD]
      have e : mpz_import dB + t * (128 * 256 ^ L') = mpz_import dB + 256 ^ L' * (t * 128) := by
        ring
      rw [e, Nat.add_mul_div_left _ _ hPpos, Nat.div_eq_of_lt hDvL', Nat.zero_add]
    · have hc : be_bytes L' D = be_bytes L' (mpz_import dB) := by
        apply be_bytes_congr
        rw [hD]
        have e : mpz_import dB + t * (128 * 256 ^ L') = mpz_import dB + 256 ^ L' * (t * 128) := by
          ring
        rw [e, Nat.add_mul_mod_self_left]
      rw [hc]
      have hz : L' + 1 - h - 1 = (L' - h - 1) + 1 := by omega
      have htail : dB = (0 : Byte) :: (List.replicate (L' - h - 1) (0 : Byte) ++ [1] ++ salt) := by
        show List.replicate (L' + 1 - h - 1) (0 : Byte) ++ [1] ++ salt = _
        rw [hz, List.replicate_succ]
        rfl
      have hi : mpz_import dB
          = mpz_import (List.replicate (L' - h - 1) (0 : Byte) ++ [1] ++ salt) := by
        rw [htail, mpz_import_cons]
        simp
      have hl : (List.replicate (L' - h - 1) (0 : Byte) ++ [1] ++ salt).length = L' := by
        simp only [List.length_append, List.length_replicate, List.length_singleton, hs]
        omega
      have hz2 : L' + 1 - h - 2 = L' - h - 1 := by omega
      rw [hi, hz2]
      have hrt := be_bytes_mpz_import (List.replicate (L' - h - 1) (0 : Byte) ++ [1] ++ salt)
      rwa [hl] at hrt

theorem take_pad (z : Nat) (b0 : Byte) (salt : List Byte) :
    (b0 :: (List.replicate z (0 : Byte) ++ [1] ++ salt)).take (z + 2)
      = b0 :: (List.replicate z (0 : Byte) ++ [1]) := by
  rw [List.take_succ_cons]
  congr 1
  have hlen : (List.replicate z (0 : Byte) ++ [1]).length = z + 1 := by simp
  rw [← hlen, List.take_left']
  rfl

theorem drop_pad (z : Nat) (b0 : Byte) (salt : List Byte) :
    (b0 :: (List.replicate z (0 : Byte) ++ [1] ++ salt)).drop (z + 2) = salt := by
  rw [List.drop_succ_cons]
  have hlen : (List.replicate z (0 : Byte) ++ [1]).length = z + 1 := by simp
  rw [← hlen, List.drop_left']
  rfl

theorem pad_check_ok (z t : Nat) (ht : t ≤ 1) (salt : List Byte) :
    pad_check (((Fin.ofNat (t * 128) : Byte) :: (List.replicate z (0 : Byte) ++ [1] ++ salt)).take
      (z + 2)) (z + 2) = some true := by
  rw [take_pad]
  unfold pad_check
  have hb0 : ¬ ((Fin.ofNat (t * 128) : Byte) ≠ 0x80 ∧ (Fin.ofNat (t * 128) : Byte) ≠ 0x0) := by
    have : t = 0 ∨ t = 1 := by omega
    rcases this with h | h <;> subst h <;> decide
  have hmid : (((Fin.ofNat (t * 128) : Byte) :: (List.replicate z (0 : Byte) ++ [1])).take
      (z + 2 - 1)).drop 1 = List.replicate z (0 : Byte) := by
    have : z + 2 - 1 = z + 1 := by omega
    rw [this, List.take_succ_cons, List.drop_succ_cons, List.drop_zero]
    exact List.take_left' (List.length_replicate z (0 : Byte))
  have hany : (List.replicate z (0 : Byte)).any (fun b => decide (b ≠ 0)) = false := by
    rw [List.any_eq_false]
    intro x hx
    have := List.eq_of_mem_replicate hx
    simp [this]
  have hlast : ((Fin.ofNat (t * 128) : Byte) :: (List.replicate z (0 : Byte) ++ [1]))[z + 2 - 1]?
      = some 1 := by
    have : z + 2 - 1 = z + 1 := by omega
    rw [this, List.getElem?_cons_succ]
    have hlen : (List.replicate z (0 : Byte)).length = z := by simp
    rw [List.getElem?_append_right (by rw [hlen])]
    simp [hlen]
  simp only [List.getElem?_cons_zero, Option.bind_eq_bind, Option.some_bind, hb0, if_false, hmid,
    hany, hlast]
  simp

end RSAPSS

namespace RSAPSS

theorem pss_encode_eq (c : Config) (sha : List Byte → List Byte) (mHash salt : List Byte)
    (hwf : c.WellFormed) (hpad : 2 ≤ c.DBSIZE / 8 - c.SHASIZE / 8)
    (hsha : ∀ x, (sha x).length = c.SHASIZE / 8) (hsalt : salt.length = c.SHASIZE / 8) :
    ∃ mask, mgf c sha (m_prime_hash c sha mHash salt) (c.SHASIZE / 8) (c.DBSIZE / 8) = some mask ∧
      mask.length = c.DBSIZE / 8 ∧
      pss_encode c sha mHash salt =
        if mpz_import mask ^^^ mpz_import
            (List.replicate (c.DBSIZE / 8 - c.SHASIZE / 8 - 1) (0 : Byte) ++ [1] ++ salt) = 0
        then none
        else some (clear_top_bit (be_bytes (c.DBSIZE / 8) (mpz_import mask ^^^ mpz_import
            (List.replicate (c.DBSIZE / 8 - c.SHASIZE / 8 - 1) (0 : Byte) ++ [1] ++ salt)))
          ++ m_prime_hash c sha mHash salt ++ [0xbc]) := by
  obtain ⟨mask, hmgf, hmlen⟩ := mgf_some c sha hwf hsha (m_prime_hash c sha mHash salt)
  refine ⟨mask, hmgf, hmlen, ?_⟩
  have hHlen : (m_prime_hash c sha mHash salt).length = c.SHASIZE / 8 := hsha _
  unfold pss_encode
  simp only [hmgf, Option.bind_eq_bind, Option.some_bind]
  generalize hH : m_prime_hash c sha mHash salt = H at *
  generalize c.SHASIZE / 8 = h at *
  generalize c.DBSIZE / 8 = L at *
  have hdlen := dB_length h L salt (by omega) hsalt
  have hM : mpz_import mask < 256 ^ L := by
    have := mpz_import_lt mask
    rwa [hmlen] at this
  have hDv : mpz_import (List.replicate (L - h - 1) (0 : Byte) ++ [1] ++ salt) < 256 ^ L := by
    have := mpz_import_lt (List.replicate (L - h - 1) (0 : Byte) ++ [1] ++ salt)
    rwa [hdlen] at this
  generalize mpz_import (List.replicate (L - h - 1) (0 : Byte) ++ [1] ++ salt) = Dv at *
  have hX : mpz_import mask ^^^ Dv < 256 ^ L := by
    rw [pow_256] at hM hDv ⊢
    exact Nat.xor_lt_two_pow hM hDv
  unfold mpz_export
  by_cases h0 : mpz_import mask ^^^ Dv = 0
  · rw [if_pos h0, if_pos h0, Option.some_bind, if_pos (by simp; omega)]
  · rw [if_neg h0, if_neg h0, if_pos hX, Option.some_bind, if_neg (by rw [be_bytes_length]; omega)]
    have hne : be_bytes L (mpz_import mask ^^^ Dv) ≠ [] := by
      intro h1
      have := congrArg List.length h1
      rw [be_bytes_length] at this
      simp at this
      omega
    rw [List.take_of_length_le (by rw [be_bytes_length]),
      List.take_of_length_le (by rw [hHlen]), List.append_assoc,
      clear_top_bit_append _ _ hne, List.append_assoc]

/-- Shape of an encoded message: `A` of `L` bytes with its top bit clear, the digest `H`, and
the trailer. -/
theorem em_parts (L h : Nat) (A H : List Byte) (hA : A.length = L) (hH : H.length = h)
    (a0 : Byte) (rest : List Byte) (hA0 : A = a0 :: rest) :
    (A ++ H ++ [0xbc]).length = L + h + 1 ∧
    (A ++ H ++ [0xbc])[L + h]? = some 0xbc ∧
    (A ++ H ++ [0xbc])[0]? = some a0 ∧
    (A ++ H ++ [0xbc]).take L = A ∧
    ((A ++ H ++ [0xbc]).drop L).take h = H := by
  refine ⟨by simp [hA, hH, Nat.add_assoc], ?_, ?_, ?_, ?_⟩
  · rw [List.getElem?_append_right (by simp [hA, hH])]
    simp [hA, hH]
  · rw [hA0]; simp
  · rw [List.append_assoc]
    exact List.take_left' hA
  · rw [List.append_assoc, List.drop_left' hA]
    exact List.take_left' hH

theorem pss_decode_encoded (c : Config) (sha : List Byte → List Byte) (m salt mask : List Byte)
    (hwf : c.WellFormed) (hpad : 2 ≤ c.DBSIZE / 8 - c.SHASIZE / 8)
    (hsha : ∀ x, (sha x).length = c.SHASIZE / 8) (hsalt : salt.length = c.SHASIZE / 8)
    (hmgf : mgf c sha (m_prime_hash c sha (sha (hashed_part m)) salt) (c.SHASIZE / 8)
      (c.DBSIZE / 8) = some mask)
    (hmlen : mask.length = c.DBSIZE / 8) :
    pss_decode c sha m
      (clear_top_bit (be_bytes (c.DBSIZE / 8) (mpz_import mask ^^^ mpz_import
          (List.replicate (c.DBSIZE / 8 - c.SHASIZE / 8 - 1) (0 : Byte) ++ [1] ++ salt)))
        ++ m_prime_hash c sha (sha (hashed_part m)) salt ++ [0xbc]) = some Ret.OK := by
  obtain ⟨hW, hh, hW28, _, _, _⟩ := wf_sizes c hwf
  have hHlen : (m_prime_hash c sha (sha (hashed_part m)) salt).length = c.SHASIZE / 8 := hsha _
  have hLh : c.SHASIZE / 8 + 2 ≤ c.DBSIZE / 8 := by omega
  obtain ⟨ht, hD0, hDlt, hbe⟩ := decoded_dB (c.SHASIZE / 8) (c.DBSIZE / 8) mask salt hLh hmlen hsalt
  have hAlen : (clear_top_bit (be_bytes (c.DBSIZE / 8) (mpz_import mask ^^^ mpz_import
          (List.replicate (c.DBSIZE / 8 - c.SHASIZE / 8 - 1) (0 : Byte) ++ [1] ++ salt)))).length
      = c.DBSIZE / 8 := by
    rw [clear_top_bit_length, be_bytes_length]
  obtain ⟨L', hL'⟩ : ∃ L', c.DBSIZE / 8 = L' + 1 := ⟨c.DBSIZE / 8 - 1, by omega⟩
  have hA0 : clear_top_bit (be_bytes (c.DBSIZE / 8) (mpz_import mask ^^^ mpz_import
          (List.replicate (c.DBSIZE / 8 - c.SHASIZE / 8 - 1) (0 : Byte) ++ [1] ++ salt)))
      = (if (Fin.ofNat ((mpz_import mask ^^^ mpz_import
          (List.replicate (c.DBSIZE / 8 - c.SHASIZE / 8 - 1) (0 : Byte) ++ [1] ++ salt))
            / 256 ^ L') : Byte) >>> 7 ≠ 0
          then (Fin.ofNat ((mpz_import mask ^^^ mpz_import
          (List.replicate (c.DBSIZE / 8 - c.SHASIZE / 8 - 1) (0 : Byte) ++ [1] ++ salt))
            / 256 ^ L') : Byte) &&& 0x7f
          else (Fin.ofNat ((mpz_import mask ^^^ mpz_import
          (List.replicate (c.DBSIZE / 8 - c.SHASIZE / 8 - 1) (0 : Byte) ++ [1] ++ salt))
            / 256 ^ L') : Byte))
        :: be_bytes L' (mpz_import mask ^^^ mpz_import
          (List.replicate (c.DBSIZE / 8 - c.SHASIZE / 8 - 1) (0 : Byte) ++ [1] ++ salt)) := by
    rw [hL']; rfl
  obtain ⟨hlen, hlast, hfirst, htake, hdrop⟩ :=
    em_parts (c.DBSIZE / 8) (c.SHASIZE / 8) _ _ hAlen hHlen _ _ hA0
  have hz : c.DBSIZE / 8 - c.SHASIZE / 8 = (c.DBSIZE / 8 - c.SHASIZE / 8 - 2) + 2 := by omega
  unfold pss_decode
  simp only [hW, Nat.add_sub_cancel, hlast, hfirst, htake, hdrop, hmgf, Option.bind_eq_bind,
    Option.some_bind, clear_byte_top, mpz_export_pos _ _ hD0 hDlt, hbe]
  have hbyte := clear_byte_top (Fin.ofNat ((mpz_import mask ^^^ mpz_import
          (List.replicate (c.DBSIZE / 8 - c.SHASIZE / 8 - 1) (0 : Byte) ++ [1] ++ salt))
            / 256 ^ L'))
  rw [if_neg (by decide), if_neg (not_not.mpr hbyte)]
  have hlen2 : ((Fin.ofNat (mpz_import mask / 2 ^ (8 * (c.DBSIZE / 8) - 1) * 128) : Byte) ::
      (List.replicate (c.DBSIZE / 8 - c.SHASIZE / 8 - 2) (0 : Byte) ++ [1] ++ salt)).length
        = c.DBSIZE / 8 := by
    simp only [List.length_cons, List.length_append, List.length_replicate,
      List.length_singleton, List.length_nil, hsalt]
    omega
  rw [if_neg (by rw [hlen2]; omega)]
  have hpc := pad_check_ok (c.DBSIZE / 8 - c.SHASIZE / 8 - 2)
    (mpz_import mask / 2 ^ (8 * (c.DBSIZE / 8) - 1)) ht salt
  rw [← hz] at hpc
  have hdrop2 := drop_pad (c.DBSIZE / 8 - c.SHASIZE / 8 - 2)
    (Fin.ofNat (mpz_import mask / 2 ^ (8 * (c.DBSIZE / 8) - 1) * 128) : Byte) salt
  rw [← hz] at hdrop2
  rw [hpc, Option.some_bind, if_neg (by simp), hdrop2,
    List.take_of_length_le (l := salt) (by rw [hsalt]), if_neg (by simp)]

end RSAPSS

namespace RSAPSS

/-! ## What signing and verification read of the message -/

theorem pss_decode_congr (c : Config) (sha : List Byte → List Byte) (m m' em : List Byte)
    (h : hashed_part m' = hashed_part m) : pss_decode c sha m' em = pss_decode c sha m em := by
  unfold pss_decode
  rw [h]

theorem verify_congr (c : Config) (sha : List Byte → List Byte) (m m' e n s : List Byte)
    (hlen : m'.length = m.length) (h : hashed_part m' = hashed_part m) :
    rsassa_pss_verify c sha m' e n s = rsassa_pss_verify c sha m e n s := by
  have hiff : msg_too_long c m' ↔ msg_too_long c m := by
    unfold msg_too_long; rw [hlen]
  unfold rsassa_pss_verify
  by_cases hm : msg_too_long c m
  · rw [if_pos hm, if_pos (hiff.mpr hm)]
  · rw [if_neg hm, if_neg (fun h1 => hm (hiff.mp h1))]
    simp only [pss_decode_congr c sha m m' _ h]

theorem sign_congr (c : Config) (sha : List Byte → List Byte) (m m' : List Byte) (rop : Nat)
    (d n : List Byte) (hlen : m'.length = m.length) (h : hashed_part m' = hashed_part m) :
    rsassa_pss_sign c sha m' rop d n = rsassa_pss_sign c sha m rop d n := by
  have hiff : msg_too_long c m' ↔ msg_too_long c m := by
    unfold msg_too_long; rw [hlen]
  unfold rsassa_pss_sign
  by_cases hm : msg_too_long c m
  · simp only [if_pos hm, if_pos (hiff.mpr hm)]
  · simp only [if_neg hm, if_neg (fun h1 => hm (hiff.mp h1)), h]

end RSAPSS

namespace RSAPSS

theorem rsa_cipher_ok (c : Config) (m k n : List Byte) (hm : m.length = c.RSAKEYSIZE / 8)
    (hk : k.length = c.RSAKEYSIZE / 8) (hn : n.length = c.RSAKEYSIZE / 8)
    (hlt : mpz_import m < mpz_import n)
    (hr : mpz_powm (mpz_import m) (mpz_import k) (mpz_import n) ≠ 0) :
    rsa_cipher c m k n = some (Ret.OK, be_bytes (c.RSAKEYSIZE / 8)
      (mpz_powm (mpz_import m) (mpz_import k) (mpz_import n))) := by
  unfold rsa_cipher
  simp only [List.take_of_length_le (le_of_eq hm), List.take_of_length_le (le_of_eq hk),
    List.take_of_length_le (le_of_eq hn)]
  rw [if_neg (by omega)]
  have hnlt : mpz_import n < 256 ^ (c.RSAKEYSIZE / 8) := by
    have := mpz_import_lt n
    rwa [hn] at this
  have hplt : mpz_powm (mpz_import m) (mpz_import k) (mpz_import n) < 256 ^ (c.RSAKEYSIZE / 8) := by
    unfold mpz_powm
    exact lt_trans (Nat.mod_lt _ (by omega)) hnlt
  rw [mpz_export_pos _ _ hr hplt]
  simp only [Option.bind_eq_bind, Option.some_bind]
  rw [store_same_length _ _ (by rw [be_bytes_length, hm])]

theorem rsa_cipher_out_of_range (c : Config) (m k n : List Byte)
    (hge : mpz_import (m.take (c.RSAKEYSIZE / 8)) ≥ mpz_import (n.take (c.RSAKEYSIZE / 8))) :
    rsa_cipher c m k n = some (Ret.EM_MSG_OUT_OF_RANGE, m) := by
  unfold rsa_cipher
  simp only
  rw [if_pos hge]

/-- The encoded message has `RSAKEYSIZE / 8` bytes, its top bit is clear and its last byte is
not zero. -/
theorem em_value (W : Nat) (B : List Byte) (hB : (B ++ [(0xbc : Byte)]).length = W) :
    (clear_top_bit (B ++ [0xbc])).length = W ∧
    mpz_import (clear_top_bit (B ++ [0xbc])) < 2 ^ (8 * W - 1) ∧
    mpz_import (clear_top_bit (B ++ [0xbc])) ≠ 0 := by
  have hne : B ++ [(0xbc : Byte)] ≠ [] := by simp
  refine ⟨by rw [clear_top_bit_length, hB], ?_, ?_⟩
  · rw [mpz_import_clear_top_bit _ hne, hB]
    exact Nat.mod_lt _ (Nat.pow_pos (by norm_num))
  · cases B with
    | nil => decide
    | cons b rest =>
      have h1 : clear_top_bit (b :: rest ++ [0xbc])
          = (if b >>> 7 ≠ 0 then b &&& 0x7f else b) :: rest ++ [0xbc] := rfl
      rw [h1, mpz_import_append]
      have h2 : mpz_import [(0xbc : Byte)] = 188 := rfl
      rw [h2]
      omega

end RSAPSS

namespace RSAPSS

/-! ## `mgf` against the stream of the specification -/

theorem mgf_blocks_eq_stream (sha : List Byte → List Byte) (seed : List Byte)
    (seedLen count : Nat) (h32 : seedLen + 4 < 2 ^ 32) (hseed : seed.length = seedLen) :
    mgf_blocks sha seed seedLen count = mgf_stream sha seed count := by
  unfold mgf_blocks mgf_stream
  congr 1
  funext i
  rw [mgf_in_eq seed seedLen i h32, List.take_of_length_le (by omega)]

theorem mgf_stream_length (sha : List Byte → List Byte) (k : Nat)
    (hsha : ∀ x, (sha x).length = k) (seed : List Byte) (count : Nat) :
    (mgf_stream sha seed count).length = count * k := by
  unfold mgf_stream
  rw [length_flatMap_const _ k (fun i => hsha _), List.length_range]

theorem mgf_stream_extends (sha : List Byte → List Byte) (seed : List Byte) (a b : Nat)
    (hab : a ≤ b) : ∃ tail, mgf_stream sha seed b = mgf_stream sha seed a ++ tail := by
  obtain ⟨j, rfl⟩ := Nat.exists_eq_add_of_le hab
  unfold mgf_stream
  rw [List.range_add, List.flatMap_append]
  exact ⟨_, rfl⟩

theorem mgf_stream_take (sha : List Byte → List Byte) (k : Nat)
    (hsha : ∀ x, (sha x).length = k) (seed : List Byte) (a b L : Nat)
    (hab : a ≤ b) (hL : L ≤ a * k) :
    (mgf_stream sha seed b).take L = (mgf_stream sha seed a).take L := by
  obtain ⟨tail, ht⟩ := mgf_stream_extends sha seed a b hab
  rw [ht, List.take_append_of_le_length]
  rw [mgf_stream_length sha k hsha]
  exact hL

theorem mgf_null (c : Config) (sha : List Byte → List Byte) (seed : List Byte)
    (seedLen maskLen : Nat) (hh32 : c.SHASIZE / 8 < 2 ^ 32)
    (hgt : maskLen > 2 ^ 32 * (c.SHASIZE / 8)) :
    mgf c sha seed seedLen maskLen = none := by
  unfold mgf
  simp only
  rw [if_pos]
  rw [Nat.mod_eq_of_lt (by omega)]
  omega

theorem mgf_eq_stream (c : Config) (sha : List Byte → List Byte) (seed : List Byte)
    (seedLen maskLen : Nat) (hh : 0 < c.SHASIZE / 8) (hh32 : c.SHASIZE / 8 < 2 ^ 32)
    (hsha : ∀ x, (sha x).length = c.SHASIZE / 8)
    (h32 : seedLen + 4 < 2 ^ 32) (hseed : seed.length = seedLen)
    (hle : maskLen ≤ (2 ^ 32 - 1) * (c.SHASIZE / 8)) (N : Nat) (hN : mgf_count c maskLen ≤ N) :
    mgf c sha seed seedLen maskLen = some ((mgf_stream sha seed N).take maskLen) ∧
      ((mgf_stream sha seed N).take maskLen).length = maskLen := by
  obtain ⟨_, hge⟩ := mgf_count_eq c maskLen hh hle
  have hlen := mgf_blocks_length sha (c.SHASIZE / 8) hsha seed seedLen (mgf_count c maskLen)
  have hN' : maskLen ≤ N * (c.SHASIZE / 8) :=
    le_trans hge (Nat.mul_le_mul_right _ hN)
  unfold mgf
  simp only
  rw [if_neg (by rw [Nat.mod_eq_of_lt (by omega)]; omega), if_neg (by omega),
    if_neg (by rw [hlen]; omega), mgf_blocks_eq_stream sha seed seedLen _ h32 hseed,
    mgf_stream_take sha _ hsha seed _ N maskLen hN hge]
  refine ⟨rfl, ?_⟩
  rw [List.length_take, mgf_stream_length sha _ hsha]
  omega

end RSAPSS

namespace RSAPSS

/-- Signing `m` and verifying a message `m'` of the same length whose hashed part is that
of `m`: verification succeeds.  The other outcome is the undefined one where the masked
data block is zero and `mpz_export` returns `NULL`. -/
theorem sign_verify_core (c : Config) (sha : List Byte → List Byte) (hwf : c.WellFormed)
    (hpad : 2 ≤ c.DBSIZE / 8 - c.SHASIZE / 8)
    (hsha : ∀ x, (sha x).length = c.SHASIZE / 8)
    (e d n : List Byte) (hkey : ValidKey c e d n)
    (m : List Byte) (hm : ¬ msg_too_long c m)
    (rop : Nat) (hrop : 2 ^ (c.SHASIZE - 1) ≤ rop ∧ rop < 2 ^ c.SHASIZE)
    (m' : List Byte) (hlen : m'.length = m.length) (hpre : hashed_part m' = hashed_part m) :
    (∃ s, rsassa_pss_sign c sha m rop d n = some (Ret.OK, s) ∧ s.length = c.RSAKEYSIZE / 8 ∧
        rsassa_pss_verify c sha m' e n s = some Ret.OK) ∨
    (rsassa_pss_sign c sha m rop d n = none ∧
      pss_encode c sha (sha (hashed_part m)) (be_bytes (c.SHASIZE / 8) rop) = none) := by
  obtain ⟨hW, hh, hW28, hK8, hS8, hM8⟩ := wf_sizes c hwf
  obtain ⟨hel, hdl, hnl, p, q, hp, hq, hpq, hN, htop, hed⟩ := hkey
  -- the salt
  have hrop0 : rop ≠ 0 := by
    have : 0 < 2 ^ (c.SHASIZE - 1) := Nat.pow_pos (by norm_num)
    omega
  have hroplt : rop < 256 ^ (c.SHASIZE / 8) := by
    rw [pow_256, ← hS8]; exact hrop.2
  have hsalt : mpz_export (c.SHASIZE / 8) rop = some (be_bytes (c.SHASIZE / 8) rop) :=
    mpz_export_pos _ _ hrop0 hroplt
  have hsl : (be_bytes (c.SHASIZE / 8) rop).length = c.SHASIZE / 8 := be_bytes_length _ _
  -- the encoded message
  obtain ⟨mask, hmgf, hmlen, henc⟩ :=
    pss_encode_eq c sha (sha (hashed_part m)) (be_bytes (c.SHASIZE / 8) rop) hwf hpad hsha hsl
  have hsign : rsassa_pss_sign c sha m rop d n =
      (pss_encode c sha (sha (hashed_part m)) (be_bytes (c.SHASIZE / 8) rop)).bind fun em =>
        (rsa_cipher c em d n).bind fun r =>
          if r.1 = Ret.EM_MSG_OUT_OF_RANGE then some (Ret.EM_MSG_OUT_OF_RANGE, [])
          else some (Ret.OK, r.2.take (c.RSAKEYSIZE / 8)) := by
    unfold rsassa_pss_sign
    simp only [hm, if_false, hsalt, Option.bind_eq_bind, Option.some_bind]
    rw [if_neg (by rw [hsl]; omega), if_neg (by omega)]
  by_cases hX : mpz_import mask ^^^ mpz_import (List.replicate
      (c.DBSIZE / 8 - c.SHASIZE / 8 - 1) (0 : Byte) ++ [1] ++ be_bytes (c.SHASIZE / 8) rop) = 0
  · right
    rw [if_pos hX] at henc
    exact ⟨by rw [hsign, henc]; rfl, henc⟩
  · left
    rw [if_neg hX] at henc
    have hHlen : (m_prime_hash c sha (sha (hashed_part m)) (be_bytes (c.SHASIZE / 8) rop)).length
        = c.SHASIZE / 8 := hsha _
    have hdec := pss_decode_encoded c sha m _ mask hwf hpad hsha hsl hmgf hmlen
    have hne : be_bytes (c.DBSIZE / 8) (mpz_import mask ^^^ mpz_import (List.replicate
        (c.DBSIZE / 8 - c.SHASIZE / 8 - 1) (0 : Byte) ++ [1] ++ be_bytes (c.SHASIZE / 8) rop))
          ≠ [] := by
      intro h1
      have := congrArg List.length h1
      rw [be_bytes_length] at this
      simp at this
      omega
    have hform : clear_top_bit (be_bytes (c.DBSIZE / 8) (mpz_import mask ^^^ mpz_import
          (List.replicate (c.DBSIZE / 8 - c.SHASIZE / 8 - 1) (0 : Byte) ++ [1]
            ++ be_bytes (c.SHASIZE / 8) rop)))
        ++ m_prime_hash c sha (sha (hashed_part m)) (be_bytes (c.SHASIZE / 8) rop) ++ [0xbc]
        = clear_top_bit ((be_bytes (c.DBSIZE / 8) (mpz_import mask ^^^ mpz_import
          (List.replicate (c.DBSIZE / 8 - c.SHASIZE / 8 - 1) (0 : Byte) ++ [1]
            ++ be_bytes (c.SHASIZE / 8) rop))
        ++ m_prime_hash c sha (sha (hashed_part m)) (be_bytes (c.SHASIZE / 8) rop)) ++ [0xbc]) := by
      rw [clear_top_bit_append _ [0xbc] (fun h => hne (List.append_eq_nil.mp h).1),
        clear_top_bit_append _ _ hne]
    rw [hform] at henc hdec
    obtain ⟨hemlen, hemlt, hem0⟩ := em_value (c.RSAKEYSIZE / 8)
      (be_bytes (c.DBSIZE / 8) (mpz_import mask ^^^ mpz_import
          (List.replicate (c.DBSIZE / 8 - c.SHASIZE / 8 - 1) (0 : Byte) ++ [1]
            ++ be_bytes (c.SHASIZE / 8) rop))
        ++ m_prime_hash c sha (sha (hashed_part m)) (be_bytes (c.SHASIZE / 8) rop))
      (by simp only [List.length_append, be_bytes_length, hHlen, List.length_singleton]; omega)
    generalize clear_top_bit ((be_bytes (c.DBSIZE / 8) (mpz_import mask ^^^ mpz_import
          (List.replicate (c.DBSIZE / 8 - c.SHASIZE / 8 - 1) (0 : Byte) ++ [1]
            ++ be_bytes (c.SHASIZE / 8) rop))
        ++ m_prime_hash c sha (sha (hashed_part m)) (be_bytes (c.SHASIZE / 8) rop)) ++ [0xbc])
      = em at *
    -- the two RSA steps
    have hEN : mpz_import em < mpz_import n := by
      have : 8 * (c.RSAKEYSIZE / 8) - 1 = c.RSAKEYSIZE - 1 := by omega
      rw [this] at hemlt
      omega
    have hr0 : mpz_powm (mpz_import em) (mpz_import d) (mpz_import n) ≠ 0 := by
      unfold mpz_powm
      rw [hN]
      exact pow_mod_ne_zero p q hp hq hpq _ _ hem0 (hN ▸ hEN)
    have hc1 := rsa_cipher_ok c em d n hemlen hdl hnl hEN hr0
    have hnlt : mpz_import n < 256 ^ (c.RSAKEYSIZE / 8) := by
      have := mpz_import_lt n
      rwa [hnl] at this
    have hNpos : 0 < mpz_import n := by omega
    have hrlt : mpz_powm (mpz_import em) (mpz_import d) (mpz_import n) < mpz_import n := by
      unfold mpz_powm; exact Nat.mod_lt _ hNpos
    have hsimp : mpz_import (be_bytes (c.RSAKEYSIZE / 8)
        (mpz_powm (mpz_import em) (mpz_import d) (mpz_import n)))
          = mpz_powm (mpz_import em) (mpz_import d) (mpz_import n) := by
      rw [mpz_import_be_bytes, Nat.mod_eq_of_lt (lt_trans hrlt hnlt)]
    have hback : mpz_powm (mpz_powm (mpz_import em) (mpz_import d) (mpz_import n))
        (mpz_import e) (mpz_import n) = mpz_import em := by
      unfold mpz_powm
      rw [← Nat.pow_mod, ← pow_mul, Nat.mul_comm (mpz_import d), hN]
      have := rsa_correct p q hp hq hpq _ _ hed (mpz_import em)
      rw [this, Nat.mod_eq_of_lt (hN ▸ hEN)]
    have hc2 := rsa_cipher_ok c (be_bytes (c.RSAKEYSIZE / 8)
        (mpz_powm (mpz_import em) (mpz_import d) (mpz_import n))) e n (be_bytes_length _ _) hel hnl
        (by rw [hsimp]; exact hrlt) (by rw [hsimp, hback]; exact hem0)
    rw [hsimp, hback] at hc2
    have hemb : be_bytes (c.RSAKEYSIZE / 8) (mpz_import em) = em := by
      have := be_bytes_mpz_import em
      rwa [hemlen] at this
    rw [hemb] at hc2
    refine ⟨be_bytes (c.RSAKEYSIZE / 8) (mpz_powm (mpz_import em) (mpz_import d) (mpz_import n)),
      ?_, be_bytes_length _ _, ?_⟩
    · rw [hsign, henc, Option.some_bind, hc1, Option.some_bind]
      simp only
      rw [if_neg (by decide), List.take_of_length_le (by rw [be_bytes_length])]
    · rw [verify_congr c sha m m' e n _ hlen hpre]
      unfold rsassa_pss_verify
      rw [if_neg hm, hc2]
      simp only [Option.bind_eq_bind, Option.some_bind]
      rw [if_neg (by decide)]
      exact hdec

end RSAPSS

namespace RSAPSS

/-! ## The checks of `rsassa_pss_verify` against the classification of the specification -/

theorem mgf_length (c : Config) (sha : List Byte → List Byte) (seed mask : List Byte)
    (seedLen maskLen : Nat) (h : mgf c sha seed seedLen maskLen = some mask) :
    mask.length = maskLen := by
  unfold mgf at h
  simp only at h
  split at h
  · exact absurd h (by simp)
  · split at h
    · exact absurd h (by simp)
    · split at h
      · exact absurd h (by simp)
      · rename_i hlen
        rw [Option.some.injEq] at h
        rw [← h, List.length_take]
        omega

theorem getElem?_eq_some_getD (l : List Byte) (i : Nat) (h : i < l.length) :
    l[i]? = some (l.getD i 0) := by
  rw [List.getD_eq_getElem?_getD, List.getElem?_eq_getElem h]
  rfl

/-- The mask that verification computes is the prefix of the stream of the specification. -/
theorem mgf_decode (c : Config) (sha : List Byte → List Byte) (hwf : c.WellFormed)
    (hsha : ∀ x, (sha x).length = c.SHASIZE / 8) (H : List Byte)
    (hH : H.length = c.SHASIZE / 8) :
    mgf c sha H (c.SHASIZE / 8) (c.DBSIZE / 8)
        = some ((mgf_stream sha H (c.DBSIZE / 8 / (c.SHASIZE / 8) + 1)).take (c.DBSIZE / 8)) ∧
      ((mgf_stream sha H (c.DBSIZE / 8 / (c.SHASIZE / 8) + 1)).take (c.DBSIZE / 8)).length
        = c.DBSIZE / 8 := by
  obtain ⟨hW, hh, hW28, hK8, hS8, hM8⟩ := wf_sizes c hwf
  have hle : c.DBSIZE / 8 ≤ (2 ^ 32 - 1) * (c.SHASIZE / 8) := by
    have : (2 ^ 32 - 1) * 1 ≤ (2 ^ 32 - 1) * (c.SHASIZE / 8) := Nat.mul_le_mul_left _ hh
    omega
  obtain ⟨hcount, _⟩ := mgf_count_eq c (c.DBSIZE / 8) hh hle
  have hN : mgf_count c (c.DBSIZE / 8) ≤ c.DBSIZE / 8 / (c.SHASIZE / 8) + 1 := by
    rw [hcount]
    split <;> omega
  exact mgf_eq_stream c sha H (c.SHASIZE / 8) (c.DBSIZE / 8) hh (by omega) hsha (by omega) hH
    hle _ hN

theorem be_bytes_zero_getD : ∀ (len i : Nat), (be_bytes len 0).getD i 0 = 0 := by
  intro len
  induction len with
  | zero => intro i; rfl
  | succ len ih =>
    intro i
    cases i with
    | zero => simp only [be_bytes, Nat.zero_div, List.getD_cons_zero]; rfl
    | succ i => simpa [be_bytes] using ih i

end RSAPSS

namespace RSAPSS

/-- When `m^k mod n` is zero, `mpz_export` writes nothing and the buffer keeps `m`. -/
theorem rsa_cipher_zero (c : Config) (m k n : List Byte)
    (hlt : mpz_import (m.take (c.RSAKEYSIZE / 8)) < mpz_import (n.take (c.RSAKEYSIZE / 8)))
    (hr : mpz_powm (mpz_import (m.take (c.RSAKEYSIZE / 8))) (mpz_import (k.take (c.RSAKEYSIZE / 8)))
      (mpz_import (n.take (c.RSAKEYSIZE / 8))) = 0) :
    rsa_cipher c m k n = some (Ret.OK, m) := by
  unfold rsa_cipher
  simp only
  rw [if_neg (by omega), hr]
  unfold mpz_export
  rw [if_pos rfl]
  simp [store]

/-- In mode `0` the exponent is `65537` whatever the accepted primes are. -/
theorem rsa_generate_key_mode_zero (c : Config) (isprime : Nat → Nat) (draws rest : List Nat)
    (p q n : Nat)
    (h : draw_modulus c isprime (draws.length + 1) draws = some (p, q, n, rest)) :
    ∃ out, rsa_generate_key c isprime 0 draws = some out ∧ out.p = p ∧ out.q = q ∧ out.n = n ∧
      out.lambda = Nat.lcm (p - 1) (q - 1) ∧ out.e = 65537 ∧
      out.d = mpz_invert 65537 (Nat.lcm (p - 1) (q - 1)) := by
  unfold rsa_generate_key
  rw [h]
  exact ⟨_, rfl, rfl, rfl, rfl, rfl, rfl, rfl⟩

/-- A prime `p` with `65537 ∣ p - 1` leaves the fixed exponent without an inverse. -/
theorem fixed_exponent_no_inverse (p q : Nat) (hdvd : 65537 ∣ p - 1) :
    Nat.gcd 65537 (Nat.lcm (p - 1) (q - 1)) ≠ 1 ∧
      mpz_invert 65537 (Nat.lcm (p - 1) (q - 1)) = none := by
  have h1 : 65537 ∣ Nat.lcm (p - 1) (q - 1) := dvd_trans hdvd (Nat.dvd_lcm_left _ _)
  have h2 : Nat.gcd 65537 (Nat.lcm (p - 1) (q - 1)) = 65537 := Nat.gcd_eq_left h1
  refine ⟨by rw [h2]; norm_num, ?_⟩
  unfold mpz_invert
  rw [if_neg (by rw [h2]; norm_num)]

theorem trial_loop_iff (n : Nat) : ∀ (fuel d : Nat), n < (d + fuel) * (d + fuel) →
    (trial_loop n fuel d = true ↔ ∀ k, d ≤ k → k * k ≤ n → ¬ k ∣ n) := by
  intro fuel
  induction fuel with
  | zero =>
    intro d h
    simp only [trial_loop, true_iff]
    intro k hk hkk
    have : d * d ≤ k * k := Nat.mul_le_mul hk hk
    simp only [Nat.add_zero] at h
    omega
  | succ fuel ih =>
    intro d h
    unfold trial_loop
    by_cases h1 : d * d > n
    · rw [if_pos h1]
      simp only [true_iff]
      intro k hk hkk
      have : d * d ≤ k * k := Nat.mul_le_mul hk hk
      omega
    · rw [if_neg h1]
      by_cases h2 : n % d = 0
      · rw [if_pos h2]
        simp only [Bool.false_eq_true, false_iff, not_forall]
        exact ⟨d, le_refl _, by omega, not_not.mpr (Nat.dvd_of_mod_eq_zero h2)⟩
      · rw [if_neg h2, ih (d + 1) (by rw [Nat.add_assoc, Nat.add_comm 1]; exact h)]
        constructor
        · intro hall k hk hkk
          by_cases hkd : k = d
          · subst hkd
            intro hdvd
            exact h2 (Nat.mod_eq_zero_of_dvd hdvd)
          · exact hall k (by omega) hkk
        · intro hall k hk hkk
          exact hall k (by omega) hkk

/-- Trial division decides primality. -/
theorem trial_division_iff (n : Nat) : trial_division n = true ↔ n.Prime := by
  unfold trial_division
  rw [Bool.and_eq_true, decide_eq_true_iff, Nat.prime_def_le_sqrt]
  have hlt : n < (2 + n) * (2 + n) := by nlinarith
  rw [trial_loop_iff n n 2 hlt]
  constructor
  · rintro ⟨h2, hall⟩
    exact ⟨h2, fun m hm hms => hall m hm (Nat.le_sqrt.mp hms)⟩
  · rintro ⟨h2, hall⟩
    exact ⟨h2, fun k hk hkk => hall k hk (Nat.le_sqrt.mpr hkk)⟩

theorem exact_prime_p_ne_zero (n : Nat) : exact_prime_p n ≠ 0 ↔ n.Prime := by
  unfold exact_prime_p
  rw [← trial_division_iff]
  cases trial_division n <;> simp

theorem toy_key_valid : ValidKey ⟨40, 8⟩ (be_bytes 5 65537) (be_bytes 5 382326495353)
    (be_bytes 5 1099503239183) := by
  refine ⟨by decide, by decide, by decide, 1048573, 1048571, by norm_num, by norm_num,
    by decide, by decide, by decide, ?_⟩
  have h1 : mpz_import (be_bytes 5 65537) = 65537 := by decide
  have h2 : mpz_import (be_bytes 5 382326495353) = 382326495353 := by decide
  rw [h1, h2]
  decide

end RSAPSS

namespace RSAPSS

/-! ## The messages that verification accepts -/

end RSAPSS

namespace RSAPSS

/-! ## Inverting one bit of a message -/

theorem flip_byte_ne : ∀ (b : Byte) (j : Fin 8), b ^^^ Fin.ofNat (2 ^ j.val) ≠ b := by
  decide!

theorem flip_bit_length (m : List Byte) (i j : Nat) : (flip_bit m i j).length = m.length := by
  unfold flip_bit
  rw [List.length_set]

theorem flip_bit_ne (m : List Byte) (i j : Nat) (hi : i < m.length) (hj : j < 8) :
    flip_bit m i j ≠ m := by
  intro h
  have h1 : (flip_bit m i j)[i]? = m[i]? := by rw [h]
  unfold flip_bit at h1
  rw [List.getElem?_set_self hi, List.getD_eq_getElem?_getD, List.getElem?_eq_getElem hi,
    Option.getD_some, Option.some.injEq] at h1
  exact flip_byte_ne _ ⟨j, hj⟩ h1

theorem take_set_of_le (l : List Byte) (a : Byte) (i k : Nat) (h : k ≤ i) :
    (l.set i a).take k = l.take k := by
  apply List.ext_getElem?
  intro x
  by_cases hx : x < k
  · rw [List.getElem?_take_of_lt hx, List.getElem?_take_of_lt hx,
      List.getElem?_set_ne (by omega)]
  · rw [List.getElem?_take_eq_none (by omega), List.getElem?_take_eq_none (by omega)]

theorem flip_bit_hashed_part (m : List Byte) (i j : Nat) (hi : m.length % 2 ^ 32 ≤ i) :
    hashed_part (flip_bit m i j) = hashed_part m := by
  unfold hashed_part
  rw [flip_bit_length]
  unfold flip_bit
  exact take_set_of_le _ _ _ _ hi

end RSAPSS

namespace RSAPSS

/-! ## The hash-too-long guard of `rsassa_pss_sign` -/

end RSAPSS

namespace mRSA

/-- C2 (code at the failing draw): `mRSA_generate_key` accepts the draw `p = q = 4294967291`
(both calls of `arc4random` return the same prime) with `e = 3`, and outputs
`(e, d, n) = (3, 2863311527, p * p)`; for the message `m = p < n` the first `mRSA_cipher`
call succeeds with `0` and the second leaves `0`, so the round trip does not give `m` back. -/
theorem mRSA_round_trip_fails_on_equal_primes :
    mRSA_generate_key 64 [(4294967291, 4294967291)] [3]
        = some (3, 2863311527, 18446744030759878681) ∧
      4294967291 < 18446744030759878681 ∧
      mRSA_cipher 4294967291 3 18446744030759878681 = some (0, 0) ∧
      mRSA_cipher 0 2863311527 18446744030759878681 = some (0, 0) ∧
      (0 : Nat) ≠ 4294967291 :=
  ⟨generate_key_equal_primes, by decide, by decide, by decide, by decide⟩

/-- C3: `mRSA_cipher(m, k, n)` returns `1` exactly when `m > n`, and then leaves `m` unchanged;
for every `m <= n` (also `m = n`) it returns `0` and replaces `m` by `mod_pow(m, k, n)`. -/
theorem mRSA_cipher_range (m k n : Nat) (hn : n < 2 ^ 64) :
    ∃ ret m', mRSA_cipher m k n = some (ret, m') ∧ (ret = 1 ↔ n < m) ∧
      (n < m → m' = m) ∧ (m ≤ n → ret = 0 ∧ mod_pow m k n = some m') := by
  unfold mRSA_cipher
  by_cases h : m > n
  · rw [if_pos h]
    exact ⟨1, m, rfl, ⟨fun _ => h, fun _ => rfl⟩, fun _ => rfl, fun h' => absurd h (by omega)⟩
  · rw [if_neg h, mod_pow_eq m k n hn]
    exact ⟨0, _, rfl, ⟨fun h' => absurd h' (by norm_num), fun h' => absurd h' h⟩,
      fun h' => absurd h' h, fun _ => ⟨rfl, rfl⟩⟩

theorem mRSA_cipher_range_witness :
    (7 : Nat) < 2 ^ 64 ∧
    ∃ ret m', mRSA_cipher 7 3 7 = some (ret, m') ∧ (ret = 1 ↔ 7 < 7) ∧
      (7 < 7 → m' = 7) ∧ (7 ≤ 7 → ret = 0 ∧ mod_pow 7 3 7 = some m') :=
  ⟨by norm_num, mRSA_cipher_range 7 3 7 (by norm_num)⟩

/-- C5: the textbook vector `n = 3233`, `e = 17`, `d = 2753`: `mRSA_cipher` on `m = 65` with
key `17` succeeds with `2790`, and on `m = 2790` with key `2753` succeeds with `65`. -/
theorem mRSA_textbook_vector :
    61 * 53 = 3233 ∧ mRSA_cipher 65 17 3233 = some (0, 2790) ∧
      mRSA_cipher 2790 2753 3233 = some (0, 65) := by
  decide

/-- C6: for `a, m < 2^64` with `m >= 1`, `mul_inv(a, m)` returns; if `gcd(a, m) = 1` the
result `r` satisfies `r < m` and `(r * a) mod m = 1 mod m` over the integers, and if
`gcd(a, m) != 1` the result is `0`. -/
theorem mul_inv_correct (a m : Nat) (ha : a < 2 ^ 64) (hm : 1 ≤ m) (hm64 : m < 2 ^ 64) :
    ∃ r, mul_inv a m = some r ∧
      (Nat.gcd a m = 1 → r < m ∧ (r * a) % m = 1 % m) ∧ (Nat.gcd a m ≠ 1 → r = 0) :=
  mul_inv_spec a m ha hm hm64

theorem mul_inv_correct_witness :
    (3 : Nat) < 2 ^ 64 ∧ 1 ≤ 7 ∧ (7 : Nat) < 2 ^ 64 ∧
    ∃ r, mul_inv 3 7 = some r ∧
      (Nat.gcd 3 7 = 1 → r < 7 ∧ (r * 3) % 7 = 1 % 7) ∧ (Nat.gcd 3 7 ≠ 1 → r = 0) :=
  ⟨by norm_num, by norm_num, by norm_num, mul_inv_correct 3 7 (by norm_num) (by norm_num)
    (by norm_num)⟩

/-- C7: for every draw of `p`, `q` (32-bit results of `arc4random`) and `e` that
`mRSA_generate_key` accepts, the outputs satisfy `n = p * q` with the top bit of `n` set, and
with `lambda = lcm(p-1, q-1) = (p-1)(q-1)/gcd(p-1, q-1)`: `e < lambda`, `gcd(e, lambda) = 1`
and `e * d = 1 (mod lambda)`. -/
theorem mRSA_key_invariant (fuel : Nat) (pqs : List (Nat × Nat)) (es : List Nat) (e d n : Nat)
    (h32 : ∀ pq ∈ pqs, pq.1 < 2 ^ 32 ∧ pq.2 < 2 ^ 32)
    (h : mRSA_generate_key fuel pqs es = some (e, d, n)) :
    ∃ p q, (p, q) ∈ pqs ∧ n = p * q ∧ 2 ^ 63 ≤ n ∧ n < 2 ^ 64 ∧
      Nat.lcm (p - 1) (q - 1) = (p - 1) * (q - 1) / Nat.gcd (p - 1) (q - 1) ∧
      e < Nat.lcm (p - 1) (q - 1) ∧ Nat.gcd e (Nat.lcm (p - 1) (q - 1)) = 1 ∧
      e * d ≡ 1 [MOD Nat.lcm (p - 1) (q - 1)] := by
  obtain ⟨p, q, hmem, hn, hn63, hp31, hq31, ⟨r, _, he⟩, hpos, hl64, hg, hd, hd0⟩ :=
    generate_key_some fuel pqs es e d n h32 h
  obtain ⟨hp32, hq32⟩ := h32 (p, q) hmem
  simp only at hp32 hq32
  have he_lt : e < Nat.lcm (p - 1) (q - 1) := by rw [he]; exact Nat.mod_lt _ hpos
  have hgcd : Nat.gcd e (Nat.lcm (p - 1) (q - 1)) = 1 := by
    have := gcd_eq e _ (by omega) hl64
    rw [this] at hg
    exact Option.some.inj hg
  obtain ⟨r', hr', hinv, _⟩ := mul_inv_spec e _ (by omega) hpos hl64
  rw [hd] at hr'
  have hdr : d = r' := Option.some.inj hr'
  subst hdr
  have hn64 : p * q < 2 ^ 64 := by
    calc p * q < 2 ^ 32 * 2 ^ 32 := Nat.mul_lt_mul'' hp32 hq32
      _ = 2 ^ 64 := by norm_num
  refine ⟨p, q, hmem, hn, hn63, by omega, rfl, he_lt, hgcd, ?_⟩
  have := (hinv hgcd).2
  unfold Nat.ModEq
  rw [Nat.mul_comm]
  exact this

theorem mRSA_key_invariant_witness :
    (∀ pq ∈ [((4294967291 : Nat), (4294967279 : Nat))], pq.1 < 2 ^ 32 ∧ pq.2 < 2 ^ 32) ∧
    mRSA_generate_key 64 [(4294967291, 4294967279)] [65537]
      = some (65537, 108506947230999203, 18446743979220271189) ∧
    ∃ p q, (p, q) ∈ [((4294967291 : Nat), (4294967279 : Nat))] ∧
      18446743979220271189 = p * q ∧ 2 ^ 63 ≤ 18446743979220271189 ∧
      18446743979220271189 < 2 ^ 64 ∧
      Nat.lcm (p - 1) (q - 1) = (p - 1) * (q - 1) / Nat.gcd (p - 1) (q - 1) ∧
      65537 < Nat.lcm (p - 1) (q - 1) ∧ Nat.gcd 65537 (Nat.lcm (p - 1) (q - 1)) = 1 ∧
      65537 * 108506947230999203 ≡ 1 [MOD Nat.lcm (p - 1) (q - 1)] :=
  have h1 : ∀ pq ∈ [((4294967291 : Nat), (4294967279 : Nat))], pq.1 < 2 ^ 32 ∧ pq.2 < 2 ^ 32 := by
    intro pq hpq
    simp only [List.mem_singleton] at hpq
    subst hpq
    norm_num
  ⟨h1, generate_key_distinct_primes,
    mRSA_key_invariant 64 _ _ _ _ _ h1 generate_key_distinct_primes⟩

/-- C9 (code at the failing input): on `n = 1` the loop `while (d % 2 == 0)` of `miller_rabin`
starts from `d = 0` and never leaves, so no amount of fuel yields a verdict (trial division
classifies `1` as not prime). -/
theorem miller_rabin_one_diverges : ∀ fuel : Nat, miller_rabin fuel 1 = none := by
  intro fuel
  unfold miller_rabin
  have hd : sub64 1 1 = 0 := by decide
  simp only [hd, strip_twos_zero]
  rfl

/-- C10: for all `a, b < 2^64`, `gcd(a, b)` terminates with the greatest common divisor of
`a` and `b`; in particular `gcd(a, 0) = a` and `gcd(0, b) = b`. -/
theorem gcd_correct (a b : Nat) (ha : a < 2 ^ 64) (hb : b < 2 ^ 64) :
    gcd a b = some (Nat.gcd a b) ∧ gcd a 0 = some a ∧ gcd 0 b = some b := by
  refine ⟨gcd_eq a b ha hb, ?_, ?_⟩
  · rw [gcd_eq a 0 ha (by norm_num), Nat.gcd_zero_right]
  · rw [gcd_eq 0 b (by norm_num) hb, Nat.gcd_zero_left]

theorem gcd_correct_witness :
    (48 : Nat) < 2 ^ 64 ∧ (18 : Nat) < 2 ^ 64 ∧
    gcd 48 18 = some (Nat.gcd 48 18) ∧ gcd 48 0 = some 48 ∧ gcd 0 18 = some 18 :=
  ⟨by norm_num, by norm_num, gcd_correct 48 18 (by norm_num) (by norm_num)⟩

end mRSA

namespace mRSA

/-- C16 (code at the failing input): with exponent `0` the loop of `mod_pow` is never entered
and the initial `r = 1` is returned unreduced; for the modulus `m = 1` that is `1`, whereas
`a^0 mod 1 = 0`; `mRSA_cipher` hands the value on (message `0`, key `0`, modulus `1`).
Everywhere else `mod_pow` returns the power residue (`mod_pow_eq`). -/
theorem mod_pow_exponent_zero_modulus_one :
    ∀ a : Nat, mod_pow a 0 1 = some 1 ∧ a ^ 0 % 1 = 0 ∧ mRSA_cipher 0 0 1 = some (0, 1) := by
  intro a
  exact ⟨rfl, by simp, rfl⟩

/-- C17: for every modulus `1 <= m < 2^64` and all `a`, `b` (reduced or not),
`mod_add(a, b, m)` returns `(a + b) mod m` computed over the unbounded integers: the
64-bit subtractions of the source never wrap past the result. -/
theorem mod_add_correct (a b m : Nat) (hm : 1 ≤ m) (hm64 : m < 2 ^ 64) :
    mod_add a b m = some ((a + b) % m) ∧ (a + b) % m < m :=
  ⟨mod_add_eq a b m hm hm64, Nat.mod_lt _ hm⟩

theorem mod_add_correct_witness :
    mod_add 18446744073709551615 18446744073709551614 18446744073709551557
      = some ((18446744073709551615 + 18446744073709551614) % 18446744073709551557) ∧
      (18446744073709551615 + 18446744073709551614) % 18446744073709551557
        < 18446744073709551557 :=
  mod_add_correct 18446744073709551615 18446744073709551614 18446744073709551557
    (by norm_num) (by norm_num)

/-- C18: for all `a`, `b` and every modulus `1 <= m < 2^64`, `mod_mul(a, b, m)` terminates
with `(a * b) mod m` over the unbounded integers, and for the sentinel `m = 0` with
`(a * b) mod 2^64`. -/
theorem mod_mul_correct (a b m : Nat) (hm64 : m < 2 ^ 64) :
    mod_mul a b m = some (a * b % (if m = 0 then 2 ^ 64 else m)) := by
  by_cases h0 : m = 0
  · subst h0
    rw [if_pos rfl]
    exact mod_mul_zero a b
  · rw [if_neg h0]
    exact mod_mul_eq a b m (Nat.pos_of_ne_zero h0) hm64

theorem mod_mul_correct_witness :
    mod_mul 18446744073709551615 18446744073709551614 18446744073709551557
      = some (18446744073709551615 * 18446744073709551614 %
          (if 18446744073709551557 = 0 then 2 ^ 64 else 18446744073709551557)) :=
  mod_mul_correct 18446744073709551615 18446744073709551614 18446744073709551557
    (by norm_num)

/-- C19 (code at the failing input): on every 64-bit input other than `1`, `miller_rabin`
terminates (64 rounds of its `while` loop suffice) with `PRIME` or `COMPOSITE`; the input
`n = 1` passes both early returns and reaches the loop `while (d % 2 == 0)` with
`d = n - 1 = 0`, which it never leaves. -/
theorem miller_rabin_total_except_one (n : Nat) (hn : n < 2 ^ 64) :
    (n ≠ 1 → ∃ v, miller_rabin 64 n = some v ∧ (v = PRIME ∨ v = COMPOSITE)) ∧
      (n = 1 → sub64 n 1 = 0 ∧
        ∀ fuel, strip_twos fuel (sub64 n 1) 0 = none ∧ miller_rabin fuel n = none) := by
  constructor
  · intro h1
    rw [miller_rabin_eq_val 64 n hn]
    unfold miller_rabin_val
    by_cases hl : n = 2 ∨ n = 3 ∨ n = 5 ∨ n = 7 ∨ n = 11 ∨ n = 13 ∨
        n = 17 ∨ n = 19 ∨ n = 23 ∨ n = 29 ∨ n = 31 ∨ n = 37
    · rw [if_pos hl]
      exact ⟨PRIME, rfl, Or.inl rfl⟩
    · rw [if_neg hl]
      by_cases he : n % 2 = 0
      · rw [if_pos he]
        exact ⟨COMPOSITE, rfl, Or.inr rfl⟩
      · rw [if_neg he]
        obtain ⟨k, q, _, _, _, hs, hv, _⟩ :=
          miller_rabin_decomposition n hn (by omega) (by omega)
        rw [hs]
        simp only
        rw [if_neg (by rw [hv]; positivity)]
        by_cases hb : all_bases_val n k (sub64 n 1 / mod_pow_val 2 k n) bases = true
        · rw [if_pos hb]
          exact ⟨PRIME, rfl, Or.inl rfl⟩
        · rw [if_neg hb]
          exact ⟨COMPOSITE, rfl, Or.inr rfl⟩
  · intro h1
    subst h1
    have hd : sub64 1 1 = 0 := by decide
    refine ⟨hd, fun fuel => ?_⟩
    rw [hd]
    refine ⟨strip_twos_zero fuel 0, ?_⟩
    unfold miller_rabin
    simp only [hd, strip_twos_zero]
    rfl

theorem miller_rabin_total_except_one_witness :
    ∃ v, miller_rabin 64 561 = some v ∧ (v = PRIME ∨ v = COMPOSITE) :=
  (miller_rabin_total_except_one 561 (by norm_num)).1 (by norm_num)

/-- C20: `miller_rabin` returns `PRIME` for every prime `n < 2^64`.  For a prime outside the
twelve hard-coded ones the loop computes `k > 0` and an odd `q` with `n - 1 = 2^k * q`
exactly, `mod_pow(2, k, n)` is `2^k`, and `prob_miller_rabin(n, a, k, q)` returns `1` for
each of the twelve bases. -/
theorem miller_rabin_accepts_primes (n : Nat) (hn : n < 2 ^ 64) (hp : n.Prime) :
    miller_rabin 64 n = some PRIME ∧
      (n ∉ bases → ∃ k q, 0 < k ∧ q % 2 = 1 ∧ n - 1 = 2 ^ k * q ∧
        strip_twos 64 (sub64 n 1) 0 = some (k, q) ∧ mod_pow 2 k n = some (2 ^ k) ∧
        sub64 n 1 / 2 ^ k = q ∧ ∀ a ∈ bases, prob_miller_rabin n a k q = some 1) := by
  have hn2 : 2 ≤ n := hp.two_le
  have hdetail : n ∉ bases → ∃ k q, 0 < k ∧ q % 2 = 1 ∧ n - 1 = 2 ^ k * q ∧
      strip_twos 64 (sub64 n 1) 0 = some (k, q) ∧ mod_pow_val 2 k n = 2 ^ k ∧
      sub64 n 1 / mod_pow_val 2 k n = q ∧ ∀ a ∈ bases, prob_val n a k q = 1 := by
    intro hl
    have h37 : 37 < n := by
      by_contra hcon
      have hle : n ≤ 37 := by omega
      interval_cases n <;> first | exact hl (by decide) | exact absurd hp (by norm_num)
    have hodd : n % 2 = 1 := by
      rcases hp.eq_two_or_odd with h2 | h2
      · omega
      · exact h2
    obtain ⟨k, q, hk, hq, hkq, hs, hv, hdiv⟩ := miller_rabin_decomposition n hn (by omega) hodd
    refine ⟨k, q, hk, hq, hkq, hs, hv, hdiv, ?_⟩
    intro a ha
    have hb : ∀ b ∈ bases, 0 < b ∧ b ≤ 37 := by decide
    obtain ⟨ha0, ha37⟩ := hb a ha
    have hnd : ¬ n ∣ a := fun hd => by
      have := Nat.le_of_dvd ha0 hd
      omega
    exact prob_val_prime n a k q hn hp hnd hkq hq
  constructor
  · rw [miller_rabin_eq_val 64 n hn]
    unfold miller_rabin_val
    by_cases hl : n = 2 ∨ n = 3 ∨ n = 5 ∨ n = 7 ∨ n = 11 ∨ n = 13 ∨
        n = 17 ∨ n = 19 ∨ n = 23 ∨ n = 29 ∨ n = 31 ∨ n = 37
    · rw [if_pos hl]
    · rw [if_neg hl]
      have hl' : n ∉ bases := by
        intro hmem
        apply hl
        simpa [bases] using hmem
      obtain ⟨k, q, hk, hq, hkq, hs, hv, hdiv, hall⟩ := hdetail hl'
      have he : ¬ n % 2 = 0 := by
        rcases hp.eq_two_or_odd with h2 | h2
        · exact absurd (Or.inl h2) hl
        · omega
      rw [if_neg he, hs]
      simp only
      rw [if_neg (by rw [hv]; positivity), hdiv, if_pos (all_bases_val_true n k q bases hall)]
  · intro hl
    obtain ⟨k, q, hk, hq, hkq, hs, hv, hdiv, hall⟩ := hdetail hl
    refine ⟨k, q, hk, hq, hkq, hs, ?_, ?_, ?_⟩
    · rw [mod_pow_eq_val 2 k n hn, hv]
    · rw [← hv]; exact hdiv
    · intro a ha
      rw [prob_eq_val n a k q hn, hall a ha]

theorem miller_rabin_accepts_primes_witness : miller_rabin 64 65537 = some PRIME :=
  (miller_rabin_accepts_primes 65537 (by norm_num) (by norm_num)).1

end mRSA

namespace RSAPSS

/-- C4 (code at the failing input): with `RSAKEYSIZE = 2048` and the 256-byte buffers
`m = 2`, `k = 2`, `n = 4`, the value of `m` is below that of `n` and `rsa_cipher` returns `0`,
but `m^k mod n = 0` and `mpz_export` writes nothing for a zero value: the buffer still holds
`2`, not the 256-byte string of `m^k mod n`. -/
theorem rsa_cipher_zero_result_not_exported :
    mpz_import (be_bytes 256 2) < mpz_import (be_bytes 256 4) ∧
    rsa_cipher ⟨2048, 256⟩ (be_bytes 256 2) (be_bytes 256 2) (be_bytes 256 4)
      = some (Ret.OK, be_bytes 256 2) ∧
    mpz_powm (mpz_import (be_bytes 256 2)) (mpz_import (be_bytes 256 2))
      (mpz_import (be_bytes 256 4)) = 0 ∧
    be_bytes 256 2 ≠ be_bytes 256 0 := by
  decide!

/-- C8 (code at the failing input): with `RSAKEYSIZE = 40`, `mode = 0`, an exact primality
test in the place of `mpz_probab_prime_p` and the draws `p = 917519`, `q = 1048573` (both
prime, `p - 1 = 14 * 65537`), `rsa_generate_key` accepts the primes (`n = p * q` has bit `39`
set, `lambda = lcm(p-1, q-1) = 68720263164`) and takes `e = 65537` without testing it against
`lambda`: `gcd(e, lambda) = 65537`, `mpz_invert` finds no inverse and `d` is left
undefined. -/
theorem rsa_generate_key_fixed_exponent_not_coprime :
    Nat.Prime 917519 ∧ Nat.Prime 1048573 ∧
    exact_prime_p 917519 = 2 ∧ exact_prime_p 1048573 = 2 ∧
    rsa_generate_key ⟨40, 8⟩ exact_prime_p 0 [917519, 1048573]
      = some { p := 917519, q := 1048573, lambda := 68720263164, e := 65537, d := none,
               n := 962085650387, e_bytes := some (be_bytes 5 65537), d_bytes := none,
               n_bytes := some (be_bytes 5 962085650387) } ∧
    917518 = 14 * 65537 ∧ Nat.lcm 917518 1048572 = 68720263164 ∧
    Nat.testBit 962085650387 39 = true ∧ Nat.gcd 65537 68720263164 = 65537 :=
  ⟨by norm_num, by norm_num, by decide!, by decide!, by decide!, by decide, by decide!,
    by decide, by decide⟩

end RSAPSS

namespace RSAPSS

end RSAPSS

namespace RSAPSS

/-- C11 (code at the failing input): for a mask length in the last block below the limit,
`(2^32 - 1) * hLen < maskLen <= 2^32 * hLen`, the guard of `mgf` does not fire, yet the
32-bit `count` wraps to `0`: the scratch buffer holds no digest, and the final `memcpy` has
no `maskLen` bytes of the stream to copy.  The specification has the first `maskLen` bytes
of the stream written for every `maskLen <= hLen * 2^32`. -/
theorem mgf_count_wraps_below_limit (c : Config) (sha : List Byte → List Byte)
    (seed : List Byte) (seedLen maskLen : Nat)
    (hh : 0 < c.SHASIZE / 8) (hh32 : c.SHASIZE / 8 < 2 ^ 32)
    (hlo : (2 ^ 32 - 1) * (c.SHASIZE / 8) < maskLen)
    (hhi : maskLen ≤ 2 ^ 32 * (c.SHASIZE / 8)) :
    ¬ (maskLen > 0x0100000000 * (c.SHASIZE / 8) % 2 ^ 64) ∧
      mgf_count c maskLen = 0 ∧
      mgf_blocks sha seed seedLen (mgf_count c maskLen) = [] ∧
      mgf c sha seed seedLen maskLen = none := by
  have hguard : ¬ (maskLen > 0x0100000000 * (c.SHASIZE / 8) % 2 ^ 64) := by
    rw [Nat.mod_eq_of_lt (by omega)]
    omega
  have hcount : mgf_count c maskLen = 0 := by
    unfold mgf_count
    generalize c.SHASIZE / 8 = k at hh hlo hhi ⊢
    have hmod : k * (maskLen / k) + maskLen % k = maskLen := Nat.div_add_mod _ _
    have hmodlt : maskLen % k < k := Nat.mod_lt _ hh
    generalize maskLen / k = q at hmod ⊢
    generalize maskLen % k = r at hmod hmodlt ⊢
    have hq1 : 2 ^ 32 - 1 ≤ q := by
      by_contra hcon
      have : k * (q + 1) ≤ k * (2 ^ 32 - 1) := Nat.mul_le_mul_left _ (by omega)
      have e : k * (q + 1) = k * q + k := by ring
      omega
    have hq2 : q ≤ 2 ^ 32 := by
      by_contra hcon
      have : k * (2 ^ 32 + 1) ≤ k * q := Nat.mul_le_mul_left _ (by omega)
      omega
    rcases Nat.lt_or_ge q (2 ^ 32) with hlt | hge
    · have hq : q = 2 ^ 32 - 1 := by omega
      have hr : r ≠ 0 := by
        intro h0
        rw [hq] at hmod
        omega
      rw [if_pos hr, hq]
      norm_num
    · have hq : q = 2 ^ 32 := by omega
      have hr : ¬ r ≠ 0 := by
        rw [hq] at hmod
        omega
      rw [if_neg hr, hq]
      norm_num
  have hblocks : mgf_blocks sha seed seedLen (mgf_count c maskLen) = [] := by
    rw [hcount]; rfl
  refine ⟨hguard, hcount, hblocks, ?_⟩
  unfold mgf
  simp only
  rw [if_neg hguard, if_neg (by omega), hblocks, if_pos]
  have : 0 < maskLen := by omega
  simpa using this

theorem mgf_count_wraps_below_limit_witness :
    mgf ⟨2048, 256⟩ (fun _ => List.replicate 32 0) [] 0 (2 ^ 37) = none :=
  (mgf_count_wraps_below_limit ⟨2048, 256⟩ (fun _ => List.replicate 32 0) [] 0 (2 ^ 37)
    (by decide) (by decide) (by decide) (by decide)).2.2.2

/-- C12 (code at the failing input): when the decoded message `em` has the trailer `0xbc`, a
clear leading bit and a zero data block (`maskedDB` equal to the mask), the classification
of the specification is `EM_INVALID_PD2`, but `mpz_export` produces nothing for the zero
`_dB` and returns `NULL`, from which `rsassa_pss_verify` copies the padding: no code is
returned.  On every other decoded message the code follows the classification
(`pss_decode_classify`). -/
theorem verify_zero_data_block (c : Config) (sha : List Byte → List Byte) (hwf : c.WellFormed)
    (hpad : 1 ≤ c.DBSIZE / 8 - c.SHASIZE / 8)
    (hsha : ∀ x, (sha x).length = c.SHASIZE / 8)
    (m : List Byte) (hm : ¬ msg_too_long c m) (e n s em : List Byte)
    (hc : rsa_cipher c s e n = some (Ret.OK, em)) (hem : em.length = c.RSAKEYSIZE / 8)
    (hlast : em.getD (c.RSAKEYSIZE / 8 - 1) 0 = 0xbc) (hfirst : em.getD 0 0 >>> 7 = 0)
    (hX : mpz_import (em.take (c.DBSIZE / 8)) ^^^ mpz_import
        ((mgf_stream sha ((em.drop (c.DBSIZE / 8)).take (c.SHASIZE / 8))
          (c.DBSIZE / 8 / (c.SHASIZE / 8) + 1)).take (c.DBSIZE / 8)) = 0) :
    verify_classify c sha m em = Ret.EM_INVALID_PD2 ∧
      mpz_export (c.DBSIZE / 8) 0 = some [] ∧
      pss_decode c sha m em = none ∧
      rsassa_pss_verify c sha m e n s = none := by
  obtain ⟨hW, hh, hW28, hK8, hS8, hM8⟩ := wf_sizes c hwf
  have hHlen : ((em.drop (c.DBSIZE / 8)).take (c.SHASIZE / 8)).length = c.SHASIZE / 8 := by
    rw [List.length_take, List.length_drop, hem]; omega
  obtain ⟨hmgf, hmlen⟩ := mgf_decode c sha hwf hsha _ hHlen
  have hl := getElem?_eq_some_getD em (c.RSAKEYSIZE / 8 - 1) (by omega)
  have hf := getElem?_eq_some_getD em 0 (by omega)
  have hexp : mpz_export (c.DBSIZE / 8) 0 = some [] := by
    unfold mpz_export; rw [if_pos rfl]
  have hdec : pss_decode c sha m em = none := by
    unfold pss_decode
    simp only [hl, hf, hmgf, hX, hexp, hlast, hfirst, Option.bind_eq_bind, Option.some_bind]
    rw [if_neg (by decide), if_neg (by decide), if_pos (by simp only [List.length_nil]; omega)]
  refine ⟨?_, hexp, hdec, ?_⟩
  · unfold verify_classify
    simp only [hX, hlast, hfirst]
    rw [if_neg (by decide), if_neg (by decide), if_pos]
    unfold pad_invalid
    right; right
    rw [be_bytes_zero_getD]
    decide
  · unfold rsassa_pss_verify
    rw [if_neg hm, hc]
    simp only [Option.bind_eq_bind, Option.some_bind]
    rw [if_neg (by decide)]
    exact hdec

theorem verify_zero_data_block_witness :
    rsa_cipher ⟨40, 8⟩ [103, 104, 105, 1, 188] (be_bytes 5 1) (be_bytes 5 (2 ^ 40 - 1))
        = some (Ret.OK, [103, 104, 105, 1, 188]) ∧
      verify_classify ⟨40, 8⟩ toy_sha [1, 2, 3] [103, 104, 105, 1, 188] = Ret.EM_INVALID_PD2 ∧
      rsassa_pss_verify ⟨40, 8⟩ toy_sha [1, 2, 3] (be_bytes 5 1) (be_bytes 5 (2 ^ 40 - 1))
        [103, 104, 105, 1, 188] = none :=
  have hc : rsa_cipher ⟨40, 8⟩ [103, 104, 105, 1, 188] (be_bytes 5 1) (be_bytes 5 (2 ^ 40 - 1))
      = some (Ret.OK, [103, 104, 105, 1, 188]) := by decide
  have h := verify_zero_data_block ⟨40, 8⟩ toy_sha (by unfold Config.WellFormed; decide)
    (by decide) (fun _ => rfl) [1, 2, 3] (by decide) (be_bytes 5 1) (be_bytes 5 (2 ^ 40 - 1))
    [103, 104, 105, 1, 188] [103, 104, 105, 1, 188] hc (by decide) (by decide) (by decide)
    (by decide)
  ⟨hc, h.1, h.2.2.2⟩

/-- C13: the encoded message that `rsassa_pss_sign` builds (lines 194-239) has
`RSAKEYSIZE / 8` bytes and, its top bit being cleared, an integer value below
`2^(RSAKEYSIZE-1)`; so it is below every modulus `n` with bit `RSAKEYSIZE - 1` set, and
`rsassa_pss_sign` never returns `EM_MSG_OUT_OF_RANGE` for such a modulus, whatever the message
and the salt. -/
theorem pss_sign_em_in_range (c : Config) (sha : List Byte → List Byte) (hwf : c.WellFormed)
    (hsha : ∀ x, (sha x).length = c.SHASIZE / 8)
    (d n : List Byte) (hn : n.length = c.RSAKEYSIZE / 8)
    (hntop : 2 ^ (c.RSAKEYSIZE - 1) ≤ mpz_import n) :
    (∀ mHash salt em, pss_encode c sha mHash salt = some em →
        em.length = c.RSAKEYSIZE / 8 ∧ mpz_import em < 2 ^ (c.RSAKEYSIZE - 1) ∧
          mpz_import em < mpz_import n) ∧
      (∀ m rop s, rsassa_pss_sign c sha m rop d n ≠ some (Ret.EM_MSG_OUT_OF_RANGE, s)) := by
  obtain ⟨hW, hh, hW28, hK8, hS8, hM8⟩ := wf_sizes c hwf
  have henc : ∀ mHash salt em, pss_encode c sha mHash salt = some em →
      em.length = c.RSAKEYSIZE / 8 ∧ mpz_import em < 2 ^ (c.RSAKEYSIZE - 1) ∧
        mpz_import em < mpz_import n := by
    intro mHash salt em h
    unfold pss_encode at h
    simp only [Option.bind_eq_bind] at h
    cases hmgf : mgf c sha (m_prime_hash c sha mHash salt) (c.SHASIZE / 8) (c.DBSIZE / 8) with
    | none => rw [hmgf] at h; exact absurd h (by simp)
    | some mask =>
      rw [hmgf, Option.some_bind] at h
      cases hexp : mpz_export (c.DBSIZE / 8) (mpz_import mask ^^^ mpz_import
          (List.replicate (c.DBSIZE / 8 - c.SHASIZE / 8 - 1) (0 : Byte) ++ [1] ++ salt)) with
      | none => rw [hexp] at h; exact absurd h (by simp)
      | some maskedDB =>
        rw [hexp, Option.some_bind] at h
        by_cases hlen : maskedDB.length < c.DBSIZE / 8
        · rw [if_pos hlen] at h; exact absurd h (by simp)
        · rw [if_neg hlen, Option.some.injEq] at h
          have hB : (maskedDB.take (c.DBSIZE / 8)
              ++ (m_prime_hash c sha mHash salt).take (c.SHASIZE / 8)
              ++ [(0xbc : Byte)]).length = c.RSAKEYSIZE / 8 := by
            have h1 : (m_prime_hash c sha mHash salt).length = c.SHASIZE / 8 := hsha _
            simp only [List.length_append, List.length_take, List.length_singleton, h1]
            omega
          obtain ⟨h1, h2, _⟩ := em_value (c.RSAKEYSIZE / 8) _ hB
          rw [h] at h1 h2
          have h8 : 8 * (c.RSAKEYSIZE / 8) - 1 = c.RSAKEYSIZE - 1 := by omega
          rw [h8] at h2
          exact ⟨h1, h2, lt_of_lt_of_le h2 hntop⟩
  refine ⟨henc, ?_⟩
  intro m rop s hs
  unfold rsassa_pss_sign at hs
  simp only [Option.bind_eq_bind] at hs
  by_cases hm : msg_too_long c m
  · rw [if_pos hm] at hs
    exact absurd hs (by simp)
  · rw [if_neg hm] at hs
    cases hsalt : mpz_export (c.SHASIZE / 8) rop with
    | none => rw [hsalt] at hs; exact absurd hs (by simp)
    | some salt =>
      rw [hsalt, Option.some_bind] at hs
      by_cases h1 : salt.length < c.SHASIZE / 8
      · rw [if_pos h1] at hs; exact absurd hs (by simp)
      · rw [if_neg h1] at hs
        by_cases h2 : c.SHASIZE / 8 > c.RSAKEYSIZE / 2
        · rw [if_pos h2] at hs; exact absurd hs (by simp)
        · rw [if_neg h2] at hs
          cases hem : pss_encode c sha (sha (hashed_part m)) salt with
          | none => rw [hem] at hs; exact absurd hs (by simp)
          | some em =>
            rw [hem, Option.some_bind] at hs
            obtain ⟨hl, _, hlt⟩ := henc _ _ _ hem
            unfold rsa_cipher at hs
            simp only [List.take_of_length_le (le_of_eq hl), List.take_of_length_le (le_of_eq hn),
              if_neg (not_le.mpr hlt), Option.bind_eq_bind] at hs
            cases hout : mpz_export (c.RSAKEYSIZE / 8)
                (mpz_powm (mpz_import em) (mpz_import (d.take (c.RSAKEYSIZE / 8)))
                  (mpz_import n)) with
            | none => rw [hout] at hs; exact absurd hs (by simp)
            | some out =>
              rw [hout] at hs
              simp at hs

theorem pss_sign_em_in_range_witness :
    mpz_import [110, 238, 56, 8, 188] < 2 ^ (40 - 1) ∧
      ∀ m rop s, rsassa_pss_sign ⟨40, 8⟩ toy_sha m rop (be_bytes 5 382326495353)
        (be_bytes 5 1099503239183) ≠ some (Ret.EM_MSG_OUT_OF_RANGE, s) :=
  have h := pss_sign_em_in_range ⟨40, 8⟩ toy_sha (by unfold Config.WellFormed; decide)
    (fun _ => rfl) (be_bytes 5 382326495353) (be_bytes 5 1099503239183) (by decide) (by decide)
  ⟨(h.1 (toy_sha []) (be_bytes 1 200) [110, 238, 56, 8, 188] (by decide)).2.1, h.2⟩

/-- C15 (code at the failing input): `rsassa_pss_sign` and `rsassa_pss_verify` pass the
message length to the digest as `(unsigned int)mLen`, so only the first `mLen mod 2^32` bytes
are hashed.  For a valid key and a message `m` within the length limit, inverting any bit of
a byte at an index `i >= mLen mod 2^32` gives a different message of the same length that
the signature of `m` verifies with result `0`, not with `EM_HASH_MISMATCH`. -/
theorem verify_accepts_bit_flip_past_hashed_bytes (c : Config) (sha : List Byte → List Byte)
    (hwf : c.WellFormed) (hpad : 2 ≤ c.DBSIZE / 8 - c.SHASIZE / 8)
    (hsha : ∀ x, (sha x).length = c.SHASIZE / 8)
    (e d n : List Byte) (hkey : ValidKey c e d n)
    (m : List Byte) (hm : ¬ msg_too_long c m)
    (rop : Nat) (hrop : 2 ^ (c.SHASIZE - 1) ≤ rop ∧ rop < 2 ^ c.SHASIZE)
    (s : List Byte) (hs : rsassa_pss_sign c sha m rop d n = some (Ret.OK, s))
    (i j : Nat) (hi : m.length % 2 ^ 32 ≤ i) (hi2 : i < m.length) (hj : j < 8) :
    (flip_bit m i j).length = m.length ∧ flip_bit m i j ≠ m ∧
      rsassa_pss_verify c sha (flip_bit m i j) e n s = some Ret.OK := by
  refine ⟨flip_bit_length m i j, flip_bit_ne m i j hi2 hj, ?_⟩
  rcases sign_verify_core c sha hwf hpad hsha e d n hkey m hm rop hrop (flip_bit m i j)
      (flip_bit_length m i j) (flip_bit_hashed_part m i j hi) with
    ⟨s', hs', _, hv⟩ | ⟨hnone, _⟩
  · rw [hs] at hs'
    have : s = s' := (Prod.mk.inj (Option.some.inj hs')).2
    rw [this]
    exact hv
  · rw [hs] at hnone
    exact absurd hnone (by simp)

theorem verify_accepts_bit_flip_past_hashed_bytes_witness :
    ∃ s, rsassa_pss_sign ⟨40, 8⟩ toy_sha (List.replicate (2 ^ 32) 0) 200
          (be_bytes 5 382326495353) (be_bytes 5 1099503239183) = some (Ret.OK, s) ∧
      flip_bit (List.replicate (2 ^ 32) 0) 0 0 ≠ List.replicate (2 ^ 32) 0 ∧
      rsassa_pss_verify ⟨40, 8⟩ toy_sha (flip_bit (List.replicate (2 ^ 32) 0) 0 0)
        (be_bytes 5 65537) (be_bytes 5 1099503239183) s = some Ret.OK :=
  have hwf : Config.WellFormed ⟨40, 8⟩ := by unfold Config.WellFormed; decide
  have hpad : 2 ≤ Config.DBSIZE ⟨40, 8⟩ / 8 - 8 / 8 := by decide
  have hsha : ∀ x, (toy_sha x).length = 8 / 8 := fun _ => rfl
  have hlen : (List.replicate (2 ^ 32) (0 : Byte)).length = 2 ^ 32 := List.length_replicate _ _
  have hm : ¬ msg_too_long ⟨40, 8⟩ (List.replicate (2 ^ 32) 0) := by
    unfold msg_too_long; rw [hlen]; decide
  have hrop : 2 ^ (8 - 1) ≤ 200 ∧ 200 < 2 ^ 8 := by decide
  have hhp : hashed_part (List.replicate (2 ^ 32) (0 : Byte)) = [] := by
    unfold hashed_part; rw [hlen]; rfl
  have henc : pss_encode ⟨40, 8⟩ toy_sha (toy_sha (hashed_part (List.replicate (2 ^ 32) 0)))
      (be_bytes (8 / 8) 200) ≠ none := by
    rw [hhp]; decide
  ((sign_verify_core ⟨40, 8⟩ toy_sha hwf hpad hsha _ _ _ toy_key_valid _ hm 200
      hrop _ rfl rfl).resolve_right fun h => henc h.2).elim fun s hs =>
    ⟨s, hs.1, (verify_accepts_bit_flip_past_hashed_bytes ⟨40, 8⟩ toy_sha hwf hpad hsha _ _ _
      toy_key_valid _ hm 200 hrop s hs.1 0 0 (by rw [hlen]; decide) (by rw [hlen]; decide)
      (by decide)).2⟩

end RSAPSS

namespace RSAPSS

end RSAPSS

